import Mathlib

/-!
Verification development for the `rd` request-decoding library.

The definitions below are shallow embeddings of the Go source:
  * `parseSet` and the `par` scanner methods (rd_internal_json.go),
  * `Parse`, `parseSlice`, `ParseSlice`, `parseBool` (the scalar/sequence parser file),
  * `Form.Decode`, `Form.decodeField` (rd_form.go),
  * `jsonFields`, `zeroAt`, `derefAllocAt`, `derefStruct`, `isSliceEmpty` (rd_internal.go).

Machine integers are modelled as `Int`/`Nat` with explicit range clamping,
strings as `String`/`List Char` (the scanner walks rune-by-rune, which matches
the Go code: `skipChar` always skips a whole UTF-8 sequence).  Code that
panics or returns a Go `error` is modelled with `Option`/`Except`.
-/

namespace Rd

/-- Error outcome of Go `strconv` numeric parsing: `ErrSyntax` or `ErrRange`. -/
inductive NumErr where
  | bad
  | range
deriving DecidableEq, Repr

/-- A decimal digit byte, as classified by `strconv` for base 10. -/
def isDigitGo (c : Char) : Bool := '0' ≤ c && c ≤ '9'

/-- Numeric value of a decimal digit character. -/
def digitVal (c : Char) : Nat := c.toNat - 48

/-- Big-endian decimal accumulation, as done by the `strconv` parse loop. -/
def decAccum (l : List Char) : Nat := l.foldl (fun acc c => acc * 10 + digitVal c) 0

/--
Model of `strconv.ParseUint(s, 10, bits)` as called by `rd.Parse`.
Mirrors its external contract: base-10 digits only (no sign, no underscores
for base 10), empty or non-digit input is a syntax error returning 0, values
above `2^bits - 1` are a range error returning the clamped maximum.
-/
def parseUintGo (bits : Nat) (s : String) : Nat × Option NumErr :=
  if s.data = [] || ¬ s.data.all isDigitGo then (0, some .bad)
  else
    let n := decAccum s.data
    if 2 ^ bits - 1 < n then (2 ^ bits - 1, some .range) else (n, none)

/--
Model of `strconv.ParseInt(s, 10, bits)` as called by `rd.Parse`.
Optional leading sign, then base-10 digits; out-of-range values are clamped
to the boundary of the signed `bits`-wide range with a range error; syntax
errors return 0.
-/
def parseIntGo (bits : Nat) (s : String) : Int × Option NumErr :=
  match s.data with
  | [] => (0, some .bad)
  | c :: rest =>
    let neg : Bool := c = '-'
    let core := if c = '-' ∨ c = '+' then rest else c :: rest
    if core = [] ∨ ¬ core.all isDigitGo then (0, some .bad)
    else
      let v : Int := if neg then -(decAccum core) else (decAccum core)
      if v < -(2 ^ (bits - 1)) then (-(2 ^ (bits - 1)), some .range)
      else if (2 ^ (bits - 1) : Int) - 1 < v then ((2 ^ (bits - 1) : Int) - 1, some .range)
      else (v, none)

/--
Embedding of `parseBool` (the scalar parser file, lines 108-122): accepts
exactly the literals `true` and `false`; everything else is an error
(`none`), and on error the destination cell is not written.
-/
def parseBool (s : String) : Option Bool :=
  if s = "true" then some true
  else if s = "false" then some false
  else none

/-- Decimal digit character for a digit value. -/
def decChar (d : Nat) : Char := Char.ofNat (48 + d)

/-- Little-endian decimal digits, by structural recursion on a fuel bound. -/
def digitsRev : Nat → Nat → List Nat
  | 0, _ => []
  | _, 0 => []
  | fuel + 1, n + 1 => ((n + 1) % 10) :: digitsRev fuel ((n + 1) / 10)

theorem digitsRev_eq {fuel n : Nat} (h : n ≤ fuel) :
    digitsRev fuel n = Nat.digits 10 n := by
  induction fuel generalizing n with
  | zero =>
    interval_cases n
    simp [digitsRev]
  | succ f ih =>
    match n with
    | 0 => simp [digitsRev]
    | n + 1 =>
      rw [digitsRev, Nat.digits_def' (by norm_num : 1 < 10) (Nat.succ_pos n)]
      congr 1
      exact ih (Nat.le_of_lt_succ (Nat.lt_of_lt_of_le (Nat.div_lt_self (Nat.succ_pos n) (by norm_num)) h))

/-- Big-endian decimal digit characters of a natural number (empty for 0). -/
def natDecChars (n : Nat) : List Char := (digitsRev n n).reverse.map decChar

theorem natDecChars_eq_digits (n : Nat) :
    natDecChars n = (Nat.digits 10 n).reverse.map decChar := by
  rw [natDecChars, digitsRev_eq (Nat.le_refl n)]

/-- The decimal text representation of a natural number. -/
def natDecStr (n : Nat) : String := if n = 0 then "0" else ⟨natDecChars n⟩

/-- The decimal text representation of an integer. -/
def intDecStr (v : Int) : String :=
  if v < 0 then "-" ++ natDecStr v.natAbs else natDecStr v.natAbs

theorem digitVal_decChar {d : Nat} (h : d < 10) : digitVal (decChar d) = d := by
  interval_cases d <;> decide

theorem isDigitGo_decChar {d : Nat} (h : d < 10) : isDigitGo (decChar d) = true := by
  interval_cases d <;> decide

theorem decAccum_reverse_map (L : List Nat) (h : ∀ d ∈ L, d < 10) :
    decAccum (L.reverse.map decChar) = Nat.ofDigits 10 L := by
  induction L with
  | nil => simp [decAccum]
  | cons d T ih =>
    have hd : d < 10 := h d (List.mem_cons_self d T)
    have hT : ∀ x ∈ T, x < 10 := fun x hx => h x (List.mem_cons_of_mem d hx)
    simp only [List.reverse_cons, List.map_append, List.map_cons, List.map_nil]
    simp only [decAccum, List.foldl_append, List.foldl_cons, List.foldl_nil]
    have := ih hT
    simp only [decAccum] at this
    rw [this, Nat.ofDigits_cons, digitVal_decChar hd]
    ring

theorem decAccum_natDecChars (n : Nat) : decAccum (natDecChars n) = n := by
  have h : ∀ d ∈ Nat.digits 10 n, d < 10 :=
    fun d hd => Nat.digits_lt_base (by norm_num) hd
  simpa [natDecChars_eq_digits, Nat.ofDigits_digits] using
    decAccum_reverse_map (Nat.digits 10 n) h

theorem natDecChars_all_digits (n : Nat) : (natDecChars n).all isDigitGo = true := by
  rw [natDecChars_eq_digits]
  simp only [List.all_eq_true]
  intro c hc
  simp only [List.mem_map, List.mem_reverse] at hc
  obtain ⟨d, hd, rfl⟩ := hc
  exact isDigitGo_decChar (Nat.digits_lt_base (by norm_num) hd)

theorem natDecStr_data {n : Nat} (h : n ≠ 0) : (natDecStr n).data = natDecChars n := by
  simp [natDecStr, h]

theorem decAccum_natDecStr (n : Nat) : decAccum (natDecStr n).data = n := by
  by_cases h : n = 0
  · subst h; decide
  · rw [natDecStr_data h]; exact decAccum_natDecChars n

theorem natDecStr_all_digits (n : Nat) : (natDecStr n).data.all isDigitGo = true := by
  by_cases h : n = 0
  · subst h; decide
  · rw [natDecStr_data h]; exact natDecChars_all_digits n

theorem natDecStr_ne_nil (n : Nat) : (natDecStr n).data ≠ [] := by
  by_cases h : n = 0
  · subst h; decide
  · rw [natDecStr_data h, natDecChars_eq_digits]
    simp only [ne_eq, List.map_eq_nil_iff, List.reverse_eq_nil_iff]
    exact Nat.digits_ne_nil_iff_ne_zero.mpr h

theorem decAccum_foldl_init (L : List Char) (a : Nat) :
    L.foldl (fun acc c => acc * 10 + digitVal c) a = a * 10 ^ L.length + decAccum L := by
  induction L generalizing a with
  | nil => simp [decAccum]
  | cons c T ih =>
    simp only [List.foldl_cons, decAccum, List.length_cons]
    rw [ih (a * 10 + digitVal c), ih (0 * 10 + digitVal c)]
    ring

theorem decAccum_append (A B : List Char) :
    decAccum (A ++ B) = decAccum A * 10 ^ B.length + decAccum B := by
  unfold decAccum
  rw [List.foldl_append]
  exact decAccum_foldl_init B _

/-- Exactly `k` decimal digit characters, big-endian, zero-padded. -/
def padDecChars (k n : Nat) : List Char :=
  (List.range k).map (fun i => decChar (n / 10 ^ (k - 1 - i) % 10))

theorem padDecChars_length (k n : Nat) : (padDecChars k n).length = k := by
  simp [padDecChars]

theorem padDecChars_succ (k n : Nat) :
    padDecChars (k + 1) n = decChar (n / 10 ^ k % 10) :: padDecChars k n := by
  unfold padDecChars
  rw [List.range_succ_eq_map, List.map_cons, List.map_map]
  refine congrArg₂ List.cons ?_ ?_
  · have h0 : k + 1 - 1 - 0 = k := by omega
    rw [h0]
  · apply List.map_congr_left
    intro i hi
    simp only [Function.comp_apply]
    have hs : k + 1 - 1 - (i + 1) = k - 1 - i := by omega
    rw [hs]

theorem padDecChars_all_digits (k n : Nat) :
    (padDecChars k n).all isDigitGo = true := by
  simp only [padDecChars, List.all_eq_true]
  intro c hc
  simp only [List.mem_map] at hc
  obtain ⟨i, _, rfl⟩ := hc
  exact isDigitGo_decChar (Nat.mod_lt _ (by norm_num))

theorem decAccum_padDecChars (k n : Nat) :
    decAccum (padDecChars k n) = n % 10 ^ k := by
  induction k generalizing n with
  | zero => simp [padDecChars, decAccum, Nat.mod_one]
  | succ k ih =>
    rw [padDecChars_succ]
    have : decAccum (decChar (n / 10 ^ k % 10) :: padDecChars k n) =
        digitVal (decChar (n / 10 ^ k % 10)) * 10 ^ k + decAccum (padDecChars k n) := by
      show decAccum ([decChar (n / 10 ^ k % 10)] ++ padDecChars k n) = _
      rw [decAccum_append, padDecChars_length]
      simp [decAccum]
    rw [this, ih, digitVal_decChar (Nat.mod_lt _ (by norm_num)), Nat.pow_succ]
    rw [Nat.mod_mul]
    ring

/--
A floating-point cell value. A finite float is identified with the exact
rational it denotes; `strconv.ParseFloat` guarantees the correctly-rounded
result, so the model below works with exact rationals and a correct-rounding
step. NaN payloads and the sign of zero are not modelled.
-/
inductive FVal where
  | fin (q : ℚ)
  | inf (neg : Bool)
  | nan
deriving DecidableEq, Repr

/-- Mantissa precision of a `bits`-wide IEEE binary float (24 or 53). -/
def fPrec (bits : Nat) : Nat := if bits = 32 then 24 else 53

/-- Smallest grid exponent (subnormal ulp) of a `bits`-wide float. -/
def fEmin (bits : Nat) : Int := if bits = 32 then -149 else -1074

/-- Largest grid exponent of a `bits`-wide float. -/
def fEmax (bits : Nat) : Int := if bits = 32 then 104 else 971

/-- Largest finite value of a `bits`-wide float. -/
def fMax (bits : Nat) : ℚ := ((2 ^ fPrec bits - 1 : Nat) : ℚ) * (2 : ℚ) ^ fEmax bits

/-- `q` is exactly representable as a finite `bits`-wide IEEE binary float. -/
def IsRepr (bits : Nat) (q : ℚ) : Prop :=
  q = 0 ∨
    ((∃ m e : Int, q = (m : ℚ) * (2 : ℚ) ^ e ∧ m.natAbs < 2 ^ fPrec bits ∧ fEmin bits ≤ e) ∧
      |q| ≤ fMax bits)

/-- Round to the nearest integer, ties to even. -/
def rneInt (q : ℚ) : Int :=
  if q - ⌊q⌋ < 1/2 then ⌊q⌋
  else if 1/2 < q - ⌊q⌋ then ⌊q⌋ + 1
  else if Even ⌊q⌋ then ⌊q⌋ else ⌊q⌋ + 1

/--
Correctly-rounded conversion of an exact rational to a `bits`-wide float
together with a range-error flag, modelling the rounding inside
`strconv.ParseFloat`: only overflow yields an error (an infinity with
`ErrRange`); a nonzero value rounding to zero underflows silently —
`strconv` sets its overflow flag only at the `±Inf` paths of `floatBits`
and `atofHex`, so underflow-to-zero returns zero with a nil error.
-/
def roundF (bits : Nat) (q : ℚ) : FVal × Bool :=
  if q = 0 then (.fin 0, false)
  else
    let g : Int := max (fEmin bits) (Int.log 2 |q| - (fPrec bits - 1))
    let r : ℚ := (rneInt (q / (2 : ℚ) ^ g) : ℚ) * (2 : ℚ) ^ g
    if fMax bits < |r| then (.inf (q < 0), true)
    else if r = 0 then (.fin 0, false)
    else (.fin r, false)

theorem rneInt_intCast (n : Int) : rneInt (n : ℚ) = n := by
  unfold rneInt
  rw [Int.floor_intCast]
  simp

/-- Correct rounding is exact on representable values. -/
theorem roundF_of_isRepr {bits : Nat} {q : ℚ} (h : IsRepr bits q) :
    roundF bits q = (.fin q, false) := by
  rcases h with rfl | ⟨⟨m, e, hq, hm, he⟩, hle⟩
  · simp [roundF]
  by_cases hq0 : q = 0
  · simp [roundF, hq0]
  have hm0 : m ≠ 0 := by
    rintro rfl
    simp at hq
    exact hq0 hq
  have h2 : (0 : ℚ) < 2 := by norm_num
  have hzpow : ∀ x : Int, (0 : ℚ) < (2 : ℚ) ^ x := fun x => zpow_pos h2 x
  have habs : |q| = (m.natAbs : ℚ) * (2 : ℚ) ^ e := by
    rw [hq, abs_mul, abs_of_pos (hzpow e)]
    congr 1
    rw [← Int.cast_abs, Int.abs_eq_natAbs, Int.cast_natCast]
  have habs_pos : (0 : ℚ) < |q| := abs_pos.mpr hq0
  -- the chosen grid exponent is at most e
  have hlog : Int.log 2 |q| < e + fPrec bits := by
    have hlt : |q| < (2 : ℚ) ^ (e + (fPrec bits : Int)) := by
      rw [habs, zpow_add₀ (ne_of_gt h2), zpow_natCast]
      have : (m.natAbs : ℚ) < (2 : ℚ) ^ (fPrec bits : Nat) := by
        exact_mod_cast Nat.cast_lt.mpr hm
      calc (m.natAbs : ℚ) * (2 : ℚ) ^ e
          < (2 : ℚ) ^ (fPrec bits : Nat) * (2 : ℚ) ^ e := by
            exact mul_lt_mul_of_pos_right this (hzpow e)
        _ = (2 : ℚ) ^ e * 2 ^ (fPrec bits : Nat) := by ring
    have := (Int.lt_zpow_iff_log_lt (by norm_num : 1 < 2) habs_pos).mp
      (by exact_mod_cast hlt)
    omega
  have hprec : (1 : Nat) ≤ fPrec bits := by
    unfold fPrec; split <;> norm_num
  have hg_le : max (fEmin bits) (Int.log 2 |q| - (fPrec bits - 1)) ≤ e := by
    apply max_le he
    have : ((fPrec bits - 1 : Nat) : Int) = (fPrec bits : Int) - 1 := by
      omega
    omega
  set g : Int := max (fEmin bits) (Int.log 2 |q| - (fPrec bits - 1)) with hgdef
  have hdiv : q / (2 : ℚ) ^ g = ((m * 2 ^ (e - g).toNat : Int) : ℚ) := by
    have hge : (0 : Int) ≤ e - g := by omega
    push_cast
    rw [hq, div_eq_iff (ne_of_gt (hzpow g)), mul_assoc, ← zpow_natCast (2 : ℚ) (e - g).toNat,
      ← zpow_add₀ (ne_of_gt h2)]
    congr 2
    omega
  have hr : ((rneInt (q / (2 : ℚ) ^ g) : Int) : ℚ) * (2 : ℚ) ^ g = q := by
    rw [hdiv, rneInt_intCast]
    push_cast
    rw [mul_assoc, ← zpow_natCast (2 : ℚ) (e - g).toNat, ← zpow_add₀ (ne_of_gt h2), hq]
    congr 2
    omega
  unfold roundF
  rw [if_neg hq0]
  simp only [← hgdef, hr]
  rw [if_neg (not_lt.mpr hle), if_neg hq0]

/-- ASCII lower-casing, as used by `strconv` for case-insensitive matching. -/
def lowerC (c : Char) : Char :=
  if 'A' ≤ c && c ≤ 'Z' then Char.ofNat (c.toNat + 32) else c

/-- Case-insensitive equality of character lists. -/
def ciEq (a b : List Char) : Bool := a.map lowerC == b.map lowerC

/--
Model of `strconv`'s `special`: the whole input is (case-insensitively)
`inf` or `infinity` with an optional sign, or an unsigned `nan`.
-/
def parseSpecial (l : List Char) : Option FVal :=
  match l with
  | [] => none
  | c :: rest =>
    if c = '+' then
      if ciEq rest "inf".data || ciEq rest "infinity".data then some (.inf false) else none
    else if c = '-' then
      if ciEq rest "inf".data || ciEq rest "infinity".data then some (.inf true) else none
    else
      if ciEq l "inf".data || ciEq l "infinity".data then some (.inf false)
      else if ciEq l "nan".data then some .nan else none

/-- A hexadecimal digit, as accepted by `strconv`'s float reader. -/
def isHexDigitGo (c : Char) : Bool :=
  isDigitGo c || ('a' ≤ lowerC c && lowerC c ≤ 'f')

/-- Numeric value of a hexadecimal digit character. -/
def hexVal (c : Char) : Nat :=
  if isDigitGo c then digitVal c else (lowerC c).toNat - 87

/-- Big-endian hexadecimal accumulation. -/
def hexAccum (l : List Char) : Nat := l.foldl (fun acc c => acc * 16 + hexVal c) 0

/-- State of `strconv.underscoreOK`'s scan. -/
inductive USaw where
  | start
  | digit
  | under
  | other
deriving DecidableEq

/-- The scanning loop of `strconv.underscoreOK`. -/
def underscoreLoop (hex : Bool) : USaw → List Char → Bool
  | saw, [] => saw ≠ .under
  | saw, c :: rest =>
    if isDigitGo c || (hex && 'a' ≤ lowerC c && lowerC c ≤ 'f') then
      underscoreLoop hex .digit rest
    else if c = '_' then
      if saw ≠ .digit then false else underscoreLoop hex .under rest
    else if saw = .under then false
    else underscoreLoop hex .other rest

/--
Model of `strconv.underscoreOK`: underscores may appear only between digits
or right after a base prefix.
-/
def underscoreOK (l : List Char) : Bool :=
  let l1 := match l with
    | c :: rest => if c = '-' || c = '+' then rest else l
    | [] => l
  match l1 with
  | z :: x :: rest =>
    if z = '0' && (lowerC x = 'b' || lowerC x = 'o' || lowerC x = 'x') then
      underscoreLoop (lowerC x = 'x') .digit rest
    else underscoreLoop false .start l1
  | _ => underscoreLoop false .start l1

/-- Split a list at the first character satisfying `p` (which is dropped). -/
def splitAtChar (p : Char → Bool) : List Char → List Char × Option (List Char)
  | [] => ([], none)
  | c :: rest =>
    if p c then ([], some rest)
    else
      let (a, b) := splitAtChar p rest
      (c :: a, b)

/-- Exact value of a decimal mantissa `digits[.digits]` (at least one digit). -/
def parseDecMant (l : List Char) : Option ℚ :=
  let (ds1, dotRest) := splitAtChar (· = '.') l
  match dotRest with
  | none => if ds1 ≠ [] && ds1.all isDigitGo then some (decAccum ds1) else none
  | some ds2 =>
    if (ds1 ++ ds2) ≠ [] && ds1.all isDigitGo && ds2.all isDigitGo then
      some ((decAccum (ds1 ++ ds2) : ℚ) / 10 ^ ds2.length)
    else none

/-- Exponent part: optional sign then at least one decimal digit. -/
def parseExpPart (l : List Char) : Option Int :=
  match l with
  | '+' :: rest =>
    if rest ≠ [] && rest.all isDigitGo then some (decAccum rest) else none
  | '-' :: rest =>
    if rest ≠ [] && rest.all isDigitGo then some (-(decAccum rest : Int)) else none
  | _ => if l ≠ [] && l.all isDigitGo then some (decAccum l) else none

/-- Exact value of an unsigned decimal float text `mantissa[eE exponent]`. -/
def decTextVal (l : List Char) : Option ℚ :=
  let (mant, expPart) := splitAtChar (fun c => lowerC c = 'e') l
  match expPart with
  | none => parseDecMant mant
  | some ex =>
    match parseDecMant mant, parseExpPart ex with
    | some m, some e => some (m * (10 : ℚ) ^ e)
    | _, _ => none

/-- Exact value of a hex float text after the `0x` prefix; the binary
exponent introduced by `p` is mandatory. -/
def hexTextVal (l : List Char) : Option ℚ :=
  let (mant, expPart) := splitAtChar (fun c => lowerC c = 'p') l
  match expPart with
  | none => none
  | some ex =>
    let (ds1, dotRest) := splitAtChar (· = '.') mant
    let mval : Option ℚ := match dotRest with
      | none => if ds1 ≠ [] && ds1.all isHexDigitGo then some (hexAccum ds1) else none
      | some ds2 =>
        if (ds1 ++ ds2) ≠ [] && ds1.all isHexDigitGo && ds2.all isHexDigitGo then
          some ((hexAccum (ds1 ++ ds2) : ℚ) / 16 ^ ds2.length)
        else none
    match mval, parseExpPart ex with
    | some m, some e => some (m * (2 : ℚ) ^ e)
    | _, _ => none

/-- Strip an optional leading sign, reporting whether it was a minus. -/
def splitSign (l : List Char) : Bool × List Char :=
  match l with
  | [] => (false, l)
  | c :: rest =>
    if c = '-' then (true, rest)
    else if c = '+' then (false, rest)
    else (false, c :: rest)

/-- Value of the unsigned digits part: hex form when prefixed `0x`/`0X`,
decimal form otherwise. -/
def floatDigitsVal (core : List Char) : Option ℚ :=
  match core with
  | z :: x :: rest =>
    if z = '0' && lowerC x = 'x' then hexTextVal rest else decTextVal core
  | _ => decTextVal core

/--
Model of `strconv.ParseFloat(s, bits)` as called by `rd.Parse`: special
values, Go float-literal syntax (decimal or hex, with digit-separating
underscores), exact value extraction, then correct rounding to the
destination width. Returns the value written into the destination together
with the optional error, mirroring Go's multiple return.
-/
def parseFloatGo (bits : Nat) (s : String) : FVal × Option NumErr :=
  match parseSpecial s.data with
  | some v => (v, none)
  | none =>
    if s.data.contains '_' && ¬ underscoreOK s.data then (.fin 0, some .bad)
    else
      let (neg, core) := splitSign (s.data.filter (· ≠ '_'))
      match floatDigitsVal core with
      | none => (.fin 0, some .bad)
      | some q =>
        let q2 := if neg then -q else q
        let (f, rerr) := roundF bits q2
        (f, if rerr then some .range else none)

/-- `strconv.ParseUint` round-trips the decimal text of every in-range value. -/
theorem parseUintGo_natDecStr {bits n : Nat} (h : n ≤ 2 ^ bits - 1) :
    parseUintGo bits (natDecStr n) = (n, none) := by
  unfold parseUintGo
  simp only [natDecStr_all_digits n, not_true, Bool.or_false, decide_False,
    natDecStr_ne_nil n, Bool.false_or, decAccum_natDecStr n]
  simp [Nat.not_lt.mpr h]

theorem isDigitGo_toNat {c : Char} (h : isDigitGo c = true) :
    48 ≤ c.toNat ∧ c.toNat ≤ 57 := by
  simp only [isDigitGo, Bool.and_eq_true, decide_eq_true_eq] at h
  obtain ⟨h1, h2⟩ := h
  exact ⟨h1, h2⟩

theorem isDigitGo_ne_minus {c : Char} (h : isDigitGo c = true) : c ≠ '-' := by
  rintro rfl
  simp [isDigitGo] at h

theorem isDigitGo_ne_plus {c : Char} (h : isDigitGo c = true) : c ≠ '+' := by
  rintro rfl
  simp [isDigitGo] at h

theorem isDigitGo_facts {c : Char} (h : isDigitGo c = true) :
    lowerC c = c ∧ c ≠ '.' ∧ c ≠ '_' ∧ c ≠ '-' ∧ c ≠ '+' ∧
      lowerC c ≠ 'e' ∧ lowerC c ≠ 'x' ∧ c ≠ 'i' ∧ c ≠ 'n' := by
  have hc : '0' ≤ c ∧ c ≤ '9' := by
    simpa only [isDigitGo, Bool.and_eq_true, decide_eq_true_eq] using h
  obtain ⟨h1c, h2c⟩ := hc
  have hlc : lowerC c = c := by
    unfold lowerC
    rw [if_neg]
    simp only [Bool.and_eq_true, decide_eq_true_eq, not_and]
    intro hA
    exact absurd (le_trans hA h2c) (by decide)
  refine ⟨hlc, ?_, ?_, ?_, ?_, ?_, ?_, ?_, ?_⟩ <;>
    first
    | (intro hq; subst hq; revert h1c h2c; decide)
    | (rw [hlc]; intro hq; subst hq; revert h1c h2c; decide)

theorem natDecStr_head (n : Nat) :
    ∃ c rest, (natDecStr n).data = c :: rest ∧ isDigitGo c = true ∧
      rest.all isDigitGo = true := by
  rcases hd : (natDecStr n).data with _ | ⟨c, rest⟩
  · exact absurd hd (natDecStr_ne_nil n)
  · have hall := natDecStr_all_digits n
    rw [hd] at hall
    simp only [List.all_cons, Bool.and_eq_true] at hall
    exact ⟨c, rest, rfl, hall.1, hall.2⟩

/-- `strconv.ParseInt` round-trips the decimal text of every in-range value. -/
theorem parseIntGo_intDecStr {bits : Nat} {v : Int}
    (hlo : -(2 ^ (bits - 1)) ≤ v) (hhi : v ≤ 2 ^ (bits - 1) - 1) :
    parseIntGo bits (intDecStr v) = (v, none) := by
  by_cases hv : v < 0
  · have hd : (intDecStr v).data = '-' :: (natDecStr v.natAbs).data := by
      simp only [intDecStr, if_pos hv]
      rw [String.data_append]
      rfl
    unfold parseIntGo
    rw [hd]
    dsimp only
    rw [if_pos (Or.inl rfl)]
    rw [if_neg (by simp [natDecStr_ne_nil v.natAbs, natDecStr_all_digits v.natAbs])]
    simp only [decide_True, if_pos, decAccum_natDecStr]
    have hval : -(((v.natAbs : Nat)) : Int) = v := by omega
    rw [hval, if_neg (by omega), if_neg (by omega)]
  · obtain ⟨c, rest, hd, hc, hrest⟩ := natDecStr_head v.natAbs
    have hds : (intDecStr v).data = c :: rest := by
      simp only [intDecStr, if_neg hv]
      exact hd
    unfold parseIntGo
    rw [hds]
    dsimp only
    have hcm := isDigitGo_ne_minus hc
    have hcp := isDigitGo_ne_plus hc
    have hcore : (if c = '-' ∨ c = '+' then rest else c :: rest) = c :: rest :=
      if_neg (by simp [hcm, hcp])
    rw [hcore]
    have hall : (c :: rest).all isDigitGo = true := by
      simp only [List.all_cons, hc, hrest, Bool.and_self]
    rw [if_neg (by simp [hall])]
    have hacc : decAccum (c :: rest) = v.natAbs := by
      rw [← hd]
      exact decAccum_natDecStr v.natAbs
    have hneg : (decide (c = '-')) = false := by simp [hcm]
    rw [hneg]
    simp only [Bool.false_eq_true, if_false, hacc]
    have hval : ((v.natAbs : Nat) : Int) = v := by omega
    rw [hval, if_neg (by omega), if_neg (by omega)]

theorem splitAtChar_none {p : Char → Bool} {l : List Char} (h : ∀ c ∈ l, p c = false) :
    splitAtChar p l = (l, none) := by
  induction l with
  | nil => rfl
  | cons c rest ih =>
    unfold splitAtChar
    rw [h c (List.mem_cons_self c rest)]
    simp only [Bool.false_eq_true, if_false]
    rw [ih (fun x hx => h x (List.mem_cons_of_mem c hx))]

theorem splitAtChar_mid {p : Char → Bool} {A B : List Char} {c : Char}
    (hA : ∀ a ∈ A, p a = false) (hc : p c = true) :
    splitAtChar p (A ++ c :: B) = (A, some B) := by
  induction A with
  | nil =>
    unfold splitAtChar
    simp [hc]
  | cons a rest ih =>
    rw [List.cons_append]
    unfold splitAtChar
    rw [hA a (List.mem_cons_self a rest)]
    simp only [Bool.false_eq_true, if_false]
    rw [ih (fun x hx => hA x (List.mem_cons_of_mem a hx))]

theorem lowerC_dot : lowerC '.' = '.' := by decide

theorem decTextVal_int {A : List Char} (hA : A.all isDigitGo = true) (hne : A ≠ []) :
    decTextVal A = some ((decAccum A : ℚ)) := by
  have hmem : ∀ c ∈ A, isDigitGo c = true := List.all_eq_true.mp hA
  unfold decTextVal
  rw [splitAtChar_none (p := fun c => decide (lowerC c = 'e'))
    (fun c hc => by simp [(isDigitGo_facts (hmem c hc)).2.2.2.2.2.1])]
  dsimp only
  unfold parseDecMant
  rw [splitAtChar_none (p := fun c => decide (c = '.'))
    (fun c hc => by simp [(isDigitGo_facts (hmem c hc)).2.1])]
  dsimp only
  simp [hne, hA]

theorem decTextVal_frac {A B : List Char} (hA : A.all isDigitGo = true)
    (hB : B.all isDigitGo = true) (hne : A ≠ []) :
    decTextVal (A ++ '.' :: B) = some ((decAccum (A ++ B) : ℚ) / 10 ^ B.length) := by
  have hmemA : ∀ c ∈ A, isDigitGo c = true := List.all_eq_true.mp hA
  have hmemB : ∀ c ∈ B, isDigitGo c = true := List.all_eq_true.mp hB
  unfold decTextVal
  rw [splitAtChar_none (p := fun c => decide (lowerC c = 'e'))
    (fun c hc => by
      rcases List.mem_append.mp hc with h | h
      · simp [(isDigitGo_facts (hmemA c h)).2.2.2.2.2.1]
      · rcases List.mem_cons.mp h with rfl | h
        · simp [lowerC_dot]
        · simp [(isDigitGo_facts (hmemB c h)).2.2.2.2.2.1])]
  dsimp only
  unfold parseDecMant
  rw [splitAtChar_mid (p := fun c => decide (c = '.'))
    (fun a ha => by simp [(isDigitGo_facts (hmemA a ha)).2.1]) (by simp)]
  dsimp only
  have hcomb : A ++ B ≠ [] := fun hcontra => hne (List.append_eq_nil.mp hcontra).1
  simp [hcomb, hA, hB]

/--
Exact decimal text of a dyadic rational: every finite binary float value is
`±n / 2^k` in lowest terms and therefore has a finite exact decimal
expansion with `k` fractional digits; this is the claim's "decimal text
representation" of a float value.
-/
def dyadicDecStr (q : ℚ) : String :=
  let k := Nat.log 2 q.den
  let v := q.num.natAbs * 5 ^ k
  (if q < 0 then "-" else "") ++ natDecStr (v / 10 ^ k) ++
    (if k = 0 then "" else "." ++ ⟨padDecChars k (v % 10 ^ k)⟩)

theorem isRepr_den_pow {bits : Nat} {q : ℚ} (h : IsRepr bits q) :
    q.den = 2 ^ Nat.log 2 q.den := by
  suffices hj : ∃ j, q.den = 2 ^ j by
    obtain ⟨j, hj⟩ := hj
    rw [hj, Nat.log_pow (by norm_num)]
  rcases h with rfl | ⟨⟨m, e, hq, _, _⟩, _⟩
  · exact ⟨0, rfl⟩
  by_cases he : 0 ≤ e
  · refine ⟨0, ?_⟩
    have hcast : q = ((m * 2 ^ e.toNat : Int) : ℚ) := by
      rw [hq]
      push_cast
      rw [← zpow_natCast (2 : ℚ) e.toNat, Int.toNat_of_nonneg he]
    rw [hcast, Rat.den_intCast, pow_zero]
  · have hj : q = Rat.divInt m (2 ^ (-e).toNat : Int) := by
      rw [Rat.divInt_eq_div, hq, eq_div_iff (by positivity)]
      push_cast
      rw [mul_assoc, ← zpow_natCast (2 : ℚ) (-e).toNat, ← zpow_add₀ (by norm_num : (2:ℚ) ≠ 0)]
      rw [show e + (((-e).toNat : Nat) : Int) = 0 by omega, zpow_zero, mul_one]
    have hdvd : (q.den : Int) ∣ (2 ^ (-e).toNat : Int) := by
      rw [hj]
      exact Rat.den_dvd m _
    have hdvd2 : q.den ∣ 2 ^ (-e).toNat := by
      have hcast : ((2 ^ (-e).toNat : Nat) : Int) = (2 ^ (-e).toNat : Int) := by push_cast; rfl
      rw [← hcast] at hdvd
      exact_mod_cast hdvd
    obtain ⟨j, _, hjj⟩ := (Nat.dvd_prime_pow Nat.prime_two).mp hdvd2
    exact ⟨j, hjj⟩

theorem ciEq_false_of_head {a b : Char} {x y : List Char} (h : lowerC a ≠ lowerC b) :
    ciEq (a :: x) (b :: y) = false := by
  unfold ciEq
  rw [beq_eq_false_iff_ne]
  simp only [List.map_cons, ne_eq, List.cons.injEq, not_and]
  exact fun hab _ => h hab

theorem contains_underscore_false {l : List Char} (h : ∀ c ∈ l, c ≠ '_') :
    l.contains '_' = false := by
  induction l with
  | nil => rfl
  | cons c rest ih =>
    have hc : ('_' == c) = false :=
      beq_eq_false_iff_ne.mpr (Ne.symm (h c (List.mem_cons_self c rest)))
    simp only [List.contains_cons, Bool.or_eq_false_iff]
    constructor
    · exact hc
    · exact ih (fun x hx => h x (List.mem_cons_of_mem c hx))

/-- Characters appearing in a rendered decimal number: digits or a dot. -/
def isNumChar (c : Char) : Prop := isDigitGo c = true ∨ c = '.'

theorem numChar_not_underscore {c : Char} (h : isNumChar c) : c ≠ '_' := by
  rcases h with h | rfl
  · exact (isDigitGo_facts h).2.2.1
  · decide

theorem numChar_lower_ne_x {c : Char} (h : isNumChar c) : lowerC c ≠ 'x' := by
  rcases h with h | rfl
  · exact (isDigitGo_facts h).2.2.2.2.2.2.1
  · decide

theorem splitSign_minus (l : List Char) : splitSign ('-' :: l) = (true, l) := by
  unfold splitSign
  simp

theorem splitSign_plain {c : Char} (l : List Char) (hm : c ≠ '-') (hp : c ≠ '+') :
    splitSign (c :: l) = (false, c :: l) := by
  unfold splitSign
  dsimp only
  rw [if_neg hm, if_neg hp]

theorem floatDigitsVal_eq_dec {l : List Char}
    (h : ∀ c0 x rest, l = c0 :: x :: rest → lowerC x ≠ 'x') :
    floatDigitsVal l = decTextVal l := by
  match l with
  | [] => rfl
  | [c] => rfl
  | c0 :: x :: rest =>
    unfold floatDigitsVal
    dsimp only
    rw [if_neg (by simp [h c0 x rest rfl])]

theorem parseSpecial_none_of_digit {c : Char} {t : List Char} (hc : isDigitGo c = true) :
    parseSpecial (c :: t) = none ∧ parseSpecial ('-' :: c :: t) = none := by
  obtain ⟨hlc, _, _, hcm, hcp, _, _, hci, hcn⟩ := isDigitGo_facts hc
  have hne_i : lowerC c ≠ lowerC 'i' := by
    rw [hlc, show lowerC 'i' = 'i' from by decide]
    exact hci
  have hne_n : lowerC c ≠ lowerC 'n' := by
    rw [hlc, show lowerC 'n' = 'n' from by decide]
    exact hcn
  constructor
  · unfold parseSpecial
    dsimp only
    rw [if_neg hcp, if_neg hcm,
      ciEq_false_of_head hne_i, ciEq_false_of_head hne_i, ciEq_false_of_head hne_n]
    rfl
  · unfold parseSpecial
    dsimp only
    rw [if_neg (by decide : ¬ ('-' : Char) = '+'), if_pos rfl,
      ciEq_false_of_head hne_i, ciEq_false_of_head hne_i]
    rfl

/--
The exact decimal text of every representable `bits`-wide float value parses
back, through the `strconv.ParseFloat` model, to exactly that value with no
error.
-/
theorem parseFloatGo_dyadicDecStr {bits : Nat} {q : ℚ} (h : IsRepr bits q) :
    parseFloatGo bits (dyadicDecStr q) = (.fin q, none) := by
  have hden := isRepr_den_pow h
  set k := Nat.log 2 q.den with hk
  set n := q.num.natAbs with hn
  set v := n * 5 ^ k with hv
  have habs : |q| = (v : ℚ) / 10 ^ k := by
    have h1 : |q| = ((n : ℚ)) / ((q.den : ℚ)) := by
      conv_lhs => rw [← Rat.num_div_den q]
      rw [abs_div]
      congr 1
      · rw [← Int.cast_abs, Int.abs_eq_natAbs, Int.cast_natCast]
      · exact abs_of_pos (by exact_mod_cast q.pos)
    rw [h1, hden, hv]
    push_cast
    rw [div_eq_div_iff (by positivity) (by positivity)]
    rw [show (10:ℚ) = 2 * 5 by norm_num, mul_pow]
    ring
  have hround := roundF_of_isRepr h
  have key : ∀ body : List Char,
      (∃ c t, body = c :: t ∧ isDigitGo c = true) →
      (∀ c ∈ body, isNumChar c) →
      decTextVal body = some |q| →
      parseFloatGo bits ⟨(if q < 0 then ['-'] else []) ++ body⟩ = (.fin q, none) := by
    rintro body ⟨c, t, rfl, hcdig⟩ hchars hval
    obtain ⟨hlc, _, hcu, hcm, hcp, _, _, hci, hcn⟩ := isDigitGo_facts hcdig
    have hnox : ∀ c0 x rest, c :: t = c0 :: x :: rest → lowerC x ≠ 'x' := by
      rintro c0 x rest heq
      have hx : x ∈ c :: t := by rw [heq]; simp
      exact numChar_lower_ne_x (hchars x hx)
    have hdval : floatDigitsVal (c :: t) = some |q| := by
      rw [floatDigitsVal_eq_dec hnox]
      exact hval
    by_cases hq : q < 0
    · have hdata : (⟨(if q < 0 then ['-'] else []) ++ c :: t⟩ : String).data =
          '-' :: c :: t := by simp [hq]
      have hspec := (parseSpecial_none_of_digit (t := t) hcdig).2
      have hcont : ('-' :: c :: t).contains '_' = false := by
        apply contains_underscore_false
        intro x hx
        rcases List.mem_cons.mp hx with rfl | hx
        · decide
        · exact numChar_not_underscore (hchars x hx)
      have hfilt : ('-' :: c :: t).filter (fun x => decide (x ≠ '_')) = '-' :: c :: t := by
        apply List.filter_eq_self.mpr
        intro x hx
        rcases List.mem_cons.mp hx with rfl | hx
        · decide
        · simp [numChar_not_underscore (hchars x hx)]
      unfold parseFloatGo
      rw [hdata, hspec]
      dsimp only
      rw [hcont]
      simp only [Bool.false_and, Bool.false_eq_true, if_false]
      rw [hfilt, splitSign_minus]
      dsimp only
      rw [hdval]
      dsimp only
      rw [show -|q| = q from by rw [abs_of_neg hq]; ring, if_pos rfl, hround]
      simp
    · have hdata : (⟨(if q < 0 then ['-'] else []) ++ c :: t⟩ : String).data =
          c :: t := by simp [hq]
      have hspec := (parseSpecial_none_of_digit (t := t) hcdig).1
      have hcont : (c :: t).contains '_' = false := by
        apply contains_underscore_false
        intro x hx
        exact numChar_not_underscore (hchars x hx)
      have hfilt : (c :: t).filter (fun x => decide (x ≠ '_')) = c :: t := by
        apply List.filter_eq_self.mpr
        intro x hx
        simp [numChar_not_underscore (hchars x hx)]
      unfold parseFloatGo
      rw [hdata, hspec]
      dsimp only
      rw [hcont]
      simp only [Bool.false_and, Bool.false_eq_true, if_false]
      rw [hfilt, splitSign_plain _ hcm hcp]
      dsimp only
      rw [hdval]
      dsimp only
      rw [show |q| = q from abs_of_nonneg (not_lt.mp hq), if_neg Bool.false_ne_true, hround]
      simp
  -- apply `key` to the rendered text
  set A := (natDecStr (v / 10 ^ k)).data with hA
  obtain ⟨c, arest, hcons, hcdig, _⟩ := natDecStr_head (v / 10 ^ k)
  have hAdig : A.all isDigitGo = true := natDecStr_all_digits _
  have hAne : A ≠ [] := natDecStr_ne_nil _
  by_cases hk0 : k = 0
  · have hstr : dyadicDecStr q = ⟨(if q < 0 then ['-'] else []) ++ A⟩ := by
      apply String.ext
      show ((if q < 0 then "-" else "") ++ natDecStr (v / 10 ^ k) ++
        (if k = 0 then "" else "." ++ ⟨padDecChars k (v % 10 ^ k)⟩)).data = _
      rw [if_pos hk0]
      rw [String.data_append, String.data_append]
      have hsign : (if q < 0 then "-" else "").data = (if q < 0 then ['-'] else []) := by
        by_cases hq : q < 0 <;> simp [hq]
      rw [hsign]
      simp
    rw [hstr]
    apply key
    · exact ⟨c, arest, by rw [hA]; exact hcons, hcdig⟩
    · intro x hx
      exact Or.inl (List.all_eq_true.mp hAdig x hx)
    · rw [decTextVal_int hAdig hAne, hA, decAccum_natDecStr, habs]
      simp [hk0]
  · set B := padDecChars k (v % 10 ^ k) with hB
    have hBdig : B.all isDigitGo = true := padDecChars_all_digits _ _
    have hstr : dyadicDecStr q = ⟨(if q < 0 then ['-'] else []) ++ (A ++ '.' :: B)⟩ := by
      apply String.ext
      show ((if q < 0 then "-" else "") ++ natDecStr (v / 10 ^ k) ++
        (if k = 0 then "" else "." ++ ⟨padDecChars k (v % 10 ^ k)⟩)).data = _
      rw [if_neg hk0]
      rw [String.data_append, String.data_append, String.data_append]
      have hsign : (if q < 0 then "-" else "").data = (if q < 0 then ['-'] else []) := by
        by_cases hq : q < 0 <;> simp [hq]
      rw [hsign]
      simp
    rw [hstr]
    apply key
    · refine ⟨c, arest ++ '.' :: B, ?_, hcdig⟩
      rw [hA, hcons]
      rfl
    · intro x hx
      rcases List.mem_append.mp hx with hx | hx
      · exact Or.inl (List.all_eq_true.mp hAdig x hx)
      · rcases List.mem_cons.mp hx with rfl | hx
        · exact Or.inr rfl
        · exact Or.inl (List.all_eq_true.mp hBdig x hx)
    · rw [decTextVal_frac hAdig hBdig hAne, habs]
      have hlen : B.length = k := by rw [hB]; exact padDecChars_length _ _
      have hvv : decAccum (A ++ B) = v := by
        rw [decAccum_append, hA, decAccum_natDecStr, hB, decAccum_padDecChars,
          padDecChars_length, Nat.mod_eq_of_lt (Nat.mod_lt _ (by positivity))]
        rw [Nat.mul_comm (v / 10 ^ k) (10 ^ k)]
        exact Nat.div_add_mod v (10 ^ k)
      rw [hvv, hlen]

mutual
/-- Shallow model of the Go destination types handled by the decoder. -/
inductive Ty where
  | int (bits : Nat)
  | uint (bits : Nat)
  | float (bits : Nat)
  | bool
  | str
  | bytes
  | slice (elem : Ty)
  | ptr (elem : Ty)
  | struct (fields : List GoField)
/-- One struct field: its `json` tag, anonymous/public flags, and its type. -/
inductive GoField where
  | mk (tag : String) (anonymous : Bool) (public : Bool) (ty : Ty)
end


/-- The `json` tag string of a field. -/
def GoField.tag : GoField → String
  | .mk t _ _ _ => t

/-- Whether the field is embedded (`Anonymous`). -/
def GoField.anonymous : GoField → Bool
  | .mk _ a _ _ => a

/-- Whether the field is exported (`PkgPath == ""`). -/
def GoField.public : GoField → Bool
  | .mk _ _ p _ => p

/-- The field's type. -/
def GoField.ty : GoField → Ty
  | .mk _ _ _ t => t

/--
Shallow model of Go values stored in destinations. `slice none` and
`ptr none` are Go's nil slice and nil pointer (the nil-ness of byte slices
is not tracked). A pointer owns its pointee: the decoder's access paths
never alias.
-/
inductive Val where
  | int (z : Int)
  | uint (n : Nat)
  | float (f : FVal)
  | bool (b : Bool)
  | str (s : String)
  | bytes (s : String)
  | slice (elems : Option (List Val))
  | ptr (v : Option Val)
  | struct (fields : List Val)
deriving Repr

/-- Errors produced by the decoding engine. -/
inductive PErr where
  | badReq (e : PErr)
  | invalidPtr
  | parse (input : String)
  | unsupported (input : String)
  | custom (id : Nat)
  | fatal
deriving DecidableEq, Repr

mutual
/-- The Go zero value of a type (`r.Zero`). -/
def zeroVal : Ty → Val
  | .int _ => .int 0
  | .uint _ => .uint 0
  | .float _ => .float (.fin 0)
  | .bool => .bool false
  | .str => .str ""
  | .bytes => .bytes ""
  | .slice _ => .slice none
  | .ptr _ => .ptr none
  | .struct fs => .struct (zeroFields fs)
/-- Zero values of a field list. -/
def zeroFields : List GoField → List Val
  | [] => []
  | .mk _ _ _ t :: rest => zeroVal t :: zeroFields rest
end

/--
Capability environment: which destination types implement `rd.Parser`,
`encoding.TextUnmarshaler` and `rd.SliceParser` (on their pointer receiver),
and what those implementations do. A capability both rewrites the receiver
and may return an error, modelled as a function to the new value and an
optional error.
-/
structure CapEnv where
  parser : Ty → Option (String → Val → Val × Option PErr)
  textUnmarshaler : Ty → Option (String → Val → Val × Option PErr)
  sliceParser : Ty → Option (Option (List String) → Val → Val × Option PErr)

/-- The environment with no custom capabilities (all built-in Go types). -/
def noCaps : CapEnv := ⟨fun _ => none, fun _ => none, fun _ => none⟩

/--
Embedding of `Parse` (the scalar parser file, lines 58-106): dispatch order
is the `rd.Parser` capability, then `encoding.TextUnmarshaler`, then
built-in rules by destination kind. Returns the new cell value with the
optional error. Numeric kinds write the `strconv` result before the error
is examined; the boolean kind writes only on success; unsupported kinds
leave the cell unchanged and report an error.
-/
def Parse (env : CapEnv) (input : String) (ty : Ty) (old : Val) : Val × Option PErr :=
  match env.parser ty with
  | some f => f input old
  | none =>
  match env.textUnmarshaler ty with
  | some f => f input old
  | none =>
  match ty with
  | .int bits =>
    let r := parseIntGo bits input
    (.int r.1, r.2.map (fun _ => .parse input))
  | .uint bits =>
    let r := parseUintGo bits input
    (.uint r.1, r.2.map (fun _ => .parse input))
  | .float bits =>
    let r := parseFloatGo bits input
    (.float r.1, r.2.map (fun _ => .parse input))
  | .bool =>
    match parseBool input with
    | some b => (.bool b, none)
    | none => (old, some (.parse input))
  | .str => (.str input, none)
  | .bytes => (.bytes input, none)
  | _ => (old, some (.unsupported input))

/-- Embedding of `derefType`: strip pointer layers. -/
def derefTy : Ty → Ty
  | .ptr e => derefTy e
  | t => t

/-- Pointer layers that `derefAlloc` allocates on the way to the target,
rebuilt around the final value. -/
def wrapPtr : Ty → Val → Val
  | .ptr e, v => .ptr (some (wrapPtr e v))
  | _, v => v

/-- Element loop of `parseSlice`: each token parsed via `Parse` into a
deref-allocated zero cell of the element type, failing fast. -/
def parseElems (env : CapEnv) (elemTy : Ty) : List String → Except PErr (List Val)
  | [] => .ok []
  | s :: rest =>
    let r := Parse env s (derefTy elemTy) (zeroVal (derefTy elemTy))
    match r.2 with
    | some err => .error err
    | none => (parseElems env elemTy rest).map (wrapPtr elemTy r.1 :: ·)

/--
Embedding of `parseSlice` (the scalar parser file, lines 28-46): a nil
input list zeroes the destination; otherwise a fresh sequence of exactly
the input's length is built and each token is parsed positionally; on the
first element failure the destination is left untouched and the error is
returned.
-/
def parseSlice (env : CapEnv) (inputs : Option (List String)) (ty : Ty) (old : Val) :
    Val × Option PErr :=
  match inputs with
  | none => (zeroVal ty, none)
  | some l =>
    match ty with
    | .slice elemTy =>
      match parseElems env elemTy l with
      | .ok elems => (.slice (some elems), none)
      | .error e => (old, some e)
    | _ => (old, some .fatal)

/--
Embedding of the exported `ParseSlice` (lines 20-26): delegates entirely to
the `SliceParser` capability when the destination type exposes it, passing
the full token list; otherwise falls through to `parseSlice`.
-/
def ParseSlice (env : CapEnv) (inputs : Option (List String)) (ty : Ty) (old : Val) :
    Val × Option PErr :=
  match env.sliceParser ty with
  | some f => f inputs old
  | none => parseSlice env inputs ty old

/-- Embedding of `isSliceEmpty` (rd_internal.go lines 219-221): nil list,
empty list, or a single empty token. -/
def isSliceEmpty (val : Option (List String)) : Bool :=
  match val with
  | none => true
  | some [] => true
  | some [s] => s = ""
  | some _ => false

/-- One resolved field (`jsonField`): external name and offset path. -/
structure JField where
  name : String
  path : List Nat
deriving DecidableEq, Repr

/-- Embedding of `tagIdent`: cut the tag at the first comma; the explicit
exclusion marker `-` maps to the empty name. -/
def tagIdent (tag : String) : String :=
  let pre := (splitAtChar (· = ',') tag.data).1
  if (⟨pre⟩ : String) = "-" then "" else ⟨pre⟩

mutual
/-- Field-list walk of `jsonFields`: visit fields in declaration order with
their indices. -/
def jsonFieldsList (pre : List Nat) (i : Nat) : List GoField → List JField
  | [] => []
  | f :: rest => jsonFieldsEntry pre i f ++ jsonFieldsList pre (i + 1) rest

/-- Embedding of `appendJsonFields`: skip non-public fields; a non-empty
tag name resolves the field; an untagged anonymous struct (possibly behind
pointers) is flattened recursively. -/
def jsonFieldsEntry (pre : List Nat) (i : Nat) : GoField → List JField
  | .mk tag anon pub ty =>
    if pub = false then []
    else
      let name := tagIdent tag
      if name ≠ "" then [⟨name, pre ++ [i]⟩]
      else if anon then jsonFieldsAnon (pre ++ [i]) ty
      else []

/-- Recursion into an embedded sub-record, through pointer types. -/
def jsonFieldsAnon (pre : List Nat) : Ty → List JField
  | .ptr e => jsonFieldsAnon pre e
  | .struct fs => jsonFieldsList pre 0 fs
  | _ => []
end

/-- Embedding of `jsonFields`/`loadJsonFields` (the process-wide cache is
semantically invisible). -/
def jsonFields : Ty → List JField
  | .struct fs => jsonFieldsList [] 0 fs
  | _ => []

mutual
/-- Structural size of a type: an executable recursion bound for the
path-walking helpers. -/
def tySize : Ty → Nat
  | .slice e => tySize e + 1
  | .ptr e => tySize e + 1
  | .struct fs => fieldsSize fs + 1
  | _ => 1
/-- Total size of a field list. -/
def fieldsSize : List GoField → Nat
  | [] => 0
  | .mk _ _ _ t :: rest => tySize t + fieldsSize rest + 1
end

/--
Embedding of `zeroAt` (rd_internal.go lines 117-131): walk the index path,
dereferencing pointers and returning silently at a nil pointer without
allocating; zero the final target (a trailing pointer field is set to nil,
not dereferenced). The explicit fuel only makes the recursion structural:
every step strictly shrinks the type or the path, so the bound supplied by
`zeroAt` is never exhausted.
-/
def zeroAtF : Nat → Ty → Val → List Nat → Val
  | 0, _, v, _ => v
  | _ + 1, t, _, [] => zeroVal t
  | fuel + 1, .ptr et, .ptr pv, i :: rest =>
    match pv with
    | none => .ptr none
    | some inner => .ptr (some (zeroAtF fuel et inner (i :: rest)))
  | fuel + 1, .struct fs, .struct vs, i :: rest =>
    match fs.get? i, vs.get? i with
    | some f, some fv => .struct (vs.set i (zeroAtF fuel f.ty fv rest))
    | _, _ => .struct vs
  | _ + 1, _, v, _ => v

/-- `zeroAt` proper: `zeroAtF` with a sufficient fuel bound. -/
def zeroAt (ty : Ty) (v : Val) (path : List Nat) : Val :=
  zeroAtF (tySize ty + path.length + 1) ty v path

/--
Embedding of `derefAllocAt` fused with the final cell update: pointers
along the path are dereferenced, allocating zero values at nil, and the
update runs on the final (non-pointer) target; the allocations persist even
when the update reports an error, matching the mutations Go performs before
parsing. Fuel as in `zeroAtF`.
-/
def updateAtF : Nat → Ty → Val → List Nat → (Ty → Val → Val × Option PErr) →
    Val × Option PErr
  | 0, _, v, _, _ => (v, some .fatal)
  | fuel + 1, .ptr et, v, path, f =>
    let inner := match v with
      | .ptr (some iv) => iv
      | _ => zeroVal et
    let r := updateAtF fuel et inner path f
    (.ptr (some r.1), r.2)
  | _ + 1, t, v, [], f => f t v
  | fuel + 1, .struct fs, v, i :: rest, f =>
    (match fs.get? i, (match v with | .struct vs => vs.get? i | _ => none) with
     | some fld, some fv =>
       let r := updateAtF fuel fld.ty fv rest f
       (match v with | .struct vs => Val.struct (vs.set i r.1) | w => w, r.2)
     | _, _ => (v, some .fatal))
  | _ + 1, _, v, _ :: _, _ => (v, some .fatal)

/-- `derefAllocAt` plus update proper: `updateAtF` with a sufficient fuel
bound. -/
def updateAt (ty : Ty) (v : Val) (path : List Nat)
    (f : Ty → Val → Val × Option PErr) : Val × Option PErr :=
  updateAtF (tySize ty + path.length + 1) ty v path f

theorem tySize_ptr (et : Ty) : tySize (Ty.ptr et) = tySize et + 1 := by
  simp [tySize]

theorem tySize_get {fs : List GoField} {i : Nat} {f : GoField}
    (h : fs.get? i = some f) : tySize (GoField.ty f) < tySize (Ty.struct fs) := by
  have key : ∀ (fs : List GoField) (i : Nat) (f : GoField),
      fs.get? i = some f → tySize (GoField.ty f) < fieldsSize fs + 1 := by
    intro fs
    induction fs with
    | nil => intro i f h; simp at h
    | cons g rest ih =>
      intro i f h
      cases g with
      | mk tag a p t =>
        match i with
        | 0 =>
          simp only [List.get?_cons_zero, Option.some.injEq] at h
          rw [← h]
          simp only [GoField.ty, fieldsSize]
          omega
        | i + 1 =>
          simp only [List.get?_cons_succ] at h
          have := ih i f h
          simp only [fieldsSize]
          omega
  have := key fs i f h
  simp only [tySize]
  omega

theorem zeroAtF_congr {f1 w : Nat} {ty : Ty} {v : Val} {path : List Nat}
    (h1 : tySize ty + path.length < f1) (h2 : tySize ty + path.length < w) :
    zeroAtF f1 ty v path = zeroAtF w ty v path := by
  induction f1 generalizing w ty v path with
  | zero => omega
  | succ f1 ih =>
    obtain ⟨w, rfl⟩ : ∃ g, w = g + 1 := ⟨w - 1, by omega⟩
    match path with
    | [] => cases ty <;> cases v <;> rfl
    | i :: rest =>
      cases ty with
      | ptr et =>
        cases v with
        | ptr pv =>
          cases pv with
          | none => rfl
          | some inner =>
            have hb1 : tySize et + (i :: rest).length < f1 := by
              rw [tySize_ptr] at h1; omega
            have hb2 : tySize et + (i :: rest).length < w := by
              rw [tySize_ptr] at h2; omega
            show Val.ptr (some (zeroAtF f1 et inner (i :: rest))) =
              Val.ptr (some (zeroAtF w et inner (i :: rest)))
            rw [ih hb1 hb2]
        | int z => rfl
        | uint n => rfl
        | float x => rfl
        | bool b => rfl
        | str s => rfl
        | bytes s => rfl
        | slice es => rfl
        | struct vs => rfl
      | struct fs =>
        cases v with
        | struct vs =>
          show (match fs.get? i, vs.get? i with
            | some f, some fv => Val.struct (vs.set i (zeroAtF f1 (GoField.ty f) fv rest))
            | _, _ => Val.struct vs) =
            (match fs.get? i, vs.get? i with
            | some f, some fv => Val.struct (vs.set i (zeroAtF w (GoField.ty f) fv rest))
            | _, _ => Val.struct vs)
          rcases hg : fs.get? i with _ | f <;> rcases hv : vs.get? i with _ | fv
          · rfl
          · rfl
          · rfl
          · have hlt := tySize_get hg
            have hb1 : tySize (GoField.ty f) + rest.length < f1 := by
              simp only [List.length_cons] at h1; omega
            have hb2 : tySize (GoField.ty f) + rest.length < w := by
              simp only [List.length_cons] at h2; omega
            simp only [ih hb1 hb2]
        | int z => rfl
        | uint n => rfl
        | float x => rfl
        | bool b => rfl
        | str s => rfl
        | bytes s => rfl
        | slice es => rfl
        | ptr pv => rfl
      | int bits => cases v <;> rfl
      | uint bits => cases v <;> rfl
      | float bits => cases v <;> rfl
      | bool => cases v <;> rfl
      | str => cases v <;> rfl
      | bytes => cases v <;> rfl
      | slice e => cases v <;> rfl

theorem zeroAt_nil (t : Ty) (v : Val) : zeroAt t v [] = zeroVal t := by
  cases t <;> cases v <;> rfl

theorem zeroAt_ptr_none (et : Ty) (i : Nat) (rest : List Nat) :
    zeroAt (Ty.ptr et) (Val.ptr none) (i :: rest) = Val.ptr none := rfl

theorem zeroAt_ptr_some (et : Ty) (iv : Val) (i : Nat) (rest : List Nat) :
    zeroAt (Ty.ptr et) (Val.ptr (some iv)) (i :: rest) =
      Val.ptr (some (zeroAt et iv (i :: rest))) := by
  show Val.ptr (some (zeroAtF (tySize (Ty.ptr et) + (i :: rest).length) et iv (i :: rest))) = _
  rw [zeroAtF_congr (w := tySize et + (i :: rest).length + 1)
    (by rw [tySize_ptr]; omega) (by omega)]
  rfl

theorem zeroAt_struct {fs : List GoField} {i : Nat} {f : GoField} {vs : List Val} {fv : Val}
    (rest : List Nat) (hg : fs.get? i = some f) (hv : vs.get? i = some fv) :
    zeroAt (Ty.struct fs) (Val.struct vs) (i :: rest) =
      Val.struct (vs.set i (zeroAt (GoField.ty f) fv rest)) := by
  show (match fs.get? i, vs.get? i with
    | some f, some fv =>
      Val.struct (vs.set i
        (zeroAtF (tySize (Ty.struct fs) + (i :: rest).length) (GoField.ty f) fv rest))
    | _, _ => Val.struct vs) = _
  rw [hg, hv]
  show Val.struct (vs.set i
      (zeroAtF (tySize (Ty.struct fs) + (i :: rest).length) (GoField.ty f) fv rest)) = _
  have hlt := tySize_get hg
  rw [zeroAtF_congr (w := tySize (GoField.ty f) + rest.length + 1)
    (by simp only [List.length_cons]; omega) (by omega)]
  rfl

theorem updateAtF_ptr (fuel : Nat) (et : Ty) (v : Val) (path : List Nat)
    (f : Ty → Val → Val × Option PErr) :
    updateAtF (fuel + 1) (Ty.ptr et) v path f =
      ((Val.ptr (some (updateAtF fuel et (match v with
          | Val.ptr (some iv) => iv
          | _ => zeroVal et) path f).1)),
        (updateAtF fuel et (match v with
          | Val.ptr (some iv) => iv
          | _ => zeroVal et) path f).2) := by
  cases path <;> rfl

theorem updateAtF_struct_cons (fuel : Nat) (fs : List GoField) (v : Val) (i : Nat)
    (rest : List Nat) (f : Ty → Val → Val × Option PErr) :
    updateAtF (fuel + 1) (Ty.struct fs) v (i :: rest) f =
      (match fs.get? i, (match v with | Val.struct vs => vs.get? i | _ => none) with
        | some fld, some fv =>
          ((match v with
            | Val.struct vs => Val.struct (vs.set i (updateAtF fuel (GoField.ty fld) fv rest f).1)
            | w => w), (updateAtF fuel (GoField.ty fld) fv rest f).2)
        | _, _ => (v, some PErr.fatal)) := rfl

theorem updateAtF_congr {f1 w : Nat} {ty : Ty} {v : Val} {path : List Nat}
    {f : Ty → Val → Val × Option PErr}
    (h1 : tySize ty + path.length < f1) (h2 : tySize ty + path.length < w) :
    updateAtF f1 ty v path f = updateAtF w ty v path f := by
  induction f1 generalizing w ty v path with
  | zero => omega
  | succ f1 ih =>
    obtain ⟨w, rfl⟩ : ∃ g, w = g + 1 := ⟨w - 1, by omega⟩
    cases ty with
    | ptr et =>
      have hb1 : tySize et + path.length < f1 := by rw [tySize_ptr] at h1; omega
      have hb2 : tySize et + path.length < w := by rw [tySize_ptr] at h2; omega
      rw [updateAtF_ptr, updateAtF_ptr, ih hb1 hb2]
    | struct fs =>
      match path with
      | [] => rfl
      | i :: rest =>
        rw [updateAtF_struct_cons, updateAtF_struct_cons]
        rcases hg : fs.get? i with _ | fld
        · rfl
        · cases v with
          | struct vs =>
            rcases hv : vs.get? i with _ | fv
            · simp only [hv]
            · simp only [hv]
              have hlt := tySize_get hg
              have hb1 : tySize (GoField.ty fld) + rest.length < f1 := by
                simp only [List.length_cons] at h1; omega
              have hb2 : tySize (GoField.ty fld) + rest.length < w := by
                simp only [List.length_cons] at h2; omega
              rw [ih hb1 hb2]
          | int z => rfl
          | uint n => rfl
          | float x => rfl
          | bool b => rfl
          | str st => rfl
          | bytes bs => rfl
          | slice es => rfl
          | ptr pv => rfl
    | int bits => cases path <;> rfl
    | uint bits => cases path <;> rfl
    | float bits => cases path <;> rfl
    | bool => cases path <;> rfl
    | str => cases path <;> rfl
    | bytes => cases path <;> rfl
    | slice e => cases path <;> rfl

theorem updateAt_ptr (et : Ty) (v : Val) (path : List Nat)
    (f : Ty → Val → Val × Option PErr) :
    updateAt (Ty.ptr et) v path f =
      ((Val.ptr (some (updateAt et (match v with
          | Val.ptr (some iv) => iv
          | _ => zeroVal et) path f).1)),
        (updateAt et (match v with
          | Val.ptr (some iv) => iv
          | _ => zeroVal et) path f).2) := by
  simp only [updateAt]
  rw [updateAtF_ptr]
  rw [updateAtF_congr (w := tySize et + path.length + 1)
    (by rw [tySize_ptr]; omega) (by omega)]

theorem updateAt_struct {fs : List GoField} {i : Nat} {fld : GoField} {vs : List Val}
    {fv : Val} (rest : List Nat) (f : Ty → Val → Val × Option PErr)
    (hg : fs.get? i = some fld) (hv : vs.get? i = some fv) :
    updateAt (Ty.struct fs) (Val.struct vs) (i :: rest) f =
      (Val.struct (vs.set i (updateAt (GoField.ty fld) fv rest f).1),
        (updateAt (GoField.ty fld) fv rest f).2) := by
  simp only [updateAt]
  rw [updateAtF_struct_cons]
  simp only [hg, hv]
  have hlt := tySize_get hg
  rw [updateAtF_congr (w := tySize (GoField.ty fld) + rest.length + 1)
    (by simp only [List.length_cons]; omega) (by omega)]

/-- A keyed (`url.Values`-like) source: association list from a key to its
Go `[]string` value, which may itself be nil. -/
def Form := List (String × Option (List String))

/-- Key lookup in a keyed source (`self[field.Name]` with its `ok` flag). -/
def Form.lookup (form : Form) (key : String) : Option (Option (List String)) :=
  match form with
  | [] => none
  | (k, v) :: rest => if k = key then some v else Form.lookup rest key

/--
Embedding of `Form.decodeField` (rd_form.go lines 192-215): absent keys are
skipped; null-equivalent values zero the field through `zeroAt`; otherwise
the target is deref-allocated and routed to the `SliceParser` capability,
`parseSlice` for slice kinds, or `Parse` on the first token.
-/
def decodeField (env : CapEnv) (form : Form) (rootTy : Ty) (root : Val)
    (field : JField) : Val × Option PErr :=
  match form.lookup field.name with
  | none => (root, none)
  | some input =>
    if isSliceEmpty input then (zeroAt rootTy root field.path, none)
    else
      updateAt rootTy root field.path (fun t old =>
        match env.sliceParser t with
        | some f => f input old
        | none =>
          match t with
          | .slice e => parseSlice env input (.slice e) old
          | _ =>
            match input with
            | some (s :: _) => Parse env s t old
            | _ => (old, some .fatal))

/-- Field loop of `Form.Decode`: decode resolved fields in order, stopping
at the first error; earlier writes persist. -/
def decodeFields (env : CapEnv) (form : Form) (rootTy : Ty) :
    Val → List JField → Val × Option PErr
  | root, [] => (root, none)
  | root, f :: rest =>
    let r := decodeField env form rootTy root f
    match r.2 with
    | some err => (r.1, some err)
    | none => decodeFields env form rootTy r.1 rest

/-- Embedding of `derefStruct` composed with the decode loop: unwrap the
argument's pointers (nil is `errInvalidPtr`); the result must be a struct
made addressable by at least one indirection. -/
def decodeDeref (env : CapEnv) (form : Form) (ty : Ty) (v : Val)
    (addressable : Bool) : Val × Option PErr :=
  match ty, v with
  | .ptr et, .ptr pv =>
    match pv with
    | none => (.ptr pv, some .invalidPtr)
    | some inner =>
      let r := decodeDeref env form et inner true
      (.ptr (some r.1), r.2)
  | .struct fs, w =>
    if addressable then decodeFields env form (.struct fs) w (jsonFields (.struct fs))
    else (w, some .invalidPtr)
  | _, w => (w, some .invalidPtr)

/--
Embedding of `Form.Decode` (rd_form.go lines 171-190): an empty source
returns immediately with no validation of the destination; otherwise the
destination must be a non-nil pointer chain to a struct; resolved fields
are decoded in order, stopping at the first error; every error is wrapped
by `errBadReq`.
-/
def Form.Decode (env : CapEnv) (form : Form) (argTy : Ty) (arg : Val) :
    Val × Option PErr :=
  if form.length = 0 then (arg, none)
  else
    let r := decodeDeref env form argTy arg false
    (r.1, r.2.map PErr.badReq)

theorem updateAt_nil {t : Ty} (v : Val) (f : Ty → Val → Val × Option PErr)
    (hnp : ∀ e, t ≠ Ty.ptr e) : updateAt t v [] f = f t v := by
  cases t <;> first
    | (exact absurd rfl (hnp _))
    | rfl

/-- A destination type whose `SliceParser` capability records its invocation
by writing a marker value; used to exercise capability dispatch. -/
def capTy : Ty := Ty.struct []

/-- Capability environment giving `capTy` a `SliceParser` implementation
that stores a marker string and succeeds. -/
def capEnv : CapEnv :=
  ⟨fun _ => none, fun _ => none,
   fun t =>
     match t with
     | Ty.struct [] => some (fun _ _ => (Val.str "called", none))
     | _ => none⟩

/--
Claim C3, counterexample: in the record-decoder path, a field whose type
exposes the `SliceParser` capability is zeroed — the capability is never
invoked — when the input token list is empty, because `decodeField` checks
`isSliceEmpty` before probing the capability. The capability would have
written the marker `"called"`; the field instead holds the zero value.
-/
theorem claim_C3_counterexample :
    decodeField capEnv [("one", some [])] (Ty.struct [GoField.mk "one" false true capTy])
        (Val.struct [Val.str "old"]) ⟨"one", [0]⟩
      = (Val.struct [Val.struct []], none) ∧
    (Val.struct [Val.struct []] : Val) ≠ Val.struct [Val.str "called"] := by
  constructor
  · rfl
  · intro h
    simp at h

/--
Claim C3, amended: the direct `ParseSlice` entry point always delegates
entirely to the `SliceParser` capability, passing the full token list
(including the empty and single-empty-token lists); the record-decoder path
delegates with the full list only when the list is not null-equivalent,
while null-equivalent lists zero the field without consulting the
capability.
-/
theorem claim_C3_amended :
    (∀ (env : CapEnv) inputs ty old f, env.sliceParser ty = some f →
      ParseSlice env inputs ty old = f inputs old) ∧
    (∀ (env : CapEnv) nm l old (t : Ty) f, env.sliceParser t = some f →
      (∀ e, t ≠ Ty.ptr e) → isSliceEmpty (some l) = false →
      decodeField env [(nm, some l)] (Ty.struct [GoField.mk nm false true t])
          (Val.struct [old]) ⟨nm, [0]⟩
        = (Val.struct [(f (some l) old).1], (f (some l) old).2)) ∧
    (∀ (env : CapEnv) form rootTy root field input,
      Form.lookup form field.name = some input → isSliceEmpty input = true →
      decodeField env form rootTy root field = (zeroAt rootTy root field.path, none)) := by
  refine ⟨?_, ?_, ?_⟩
  · intro env inputs ty old f hcap
    unfold ParseSlice
    rw [hcap]
  · intro env nm l old t f hcap hnp hne
    have hlook : Form.lookup [(nm, some l)] nm = some (some l) := by
      simp [Form.lookup]
    unfold decodeField
    rw [hlook]
    dsimp only
    rw [hne]
    simp only [Bool.false_eq_true, if_false]
    have hg : [GoField.mk nm false true t].get? 0 = some (GoField.mk nm false true t) := rfl
    have hv : [old].get? 0 = some old := rfl
    rw [updateAt_struct [] _ hg hv]
    simp only [GoField.ty]
    rw [updateAt_nil _ _ hnp]
    rw [hcap]
    rfl
  · intro env form rootTy root field input hlook hempty
    unfold decodeField
    rw [hlook]
    dsimp only
    rw [hempty]
    simp

theorem claim_C3_amended_witness :
    (capEnv.sliceParser capTy = some (fun _ _ => (Val.str "called", none)) ∧
      ParseSlice capEnv (some []) capTy (Val.str "old") = (Val.str "called", none)) ∧
    isSliceEmpty (some ["x", "y"]) = false ∧
    decodeField capEnv [("one", some ["x", "y"])]
        (Ty.struct [GoField.mk "one" false true capTy])
        (Val.struct [Val.str "old"]) ⟨"one", [0]⟩
      = (Val.struct [Val.str "called"], none) ∧
    Form.lookup [("one", some [])] "one" = some (some []) ∧
    decodeField capEnv [("one", some [])] (Ty.struct [GoField.mk "one" false true capTy])
        (Val.struct [Val.str "old"]) ⟨"one", [0]⟩
      = (zeroAt (Ty.struct [GoField.mk "one" false true capTy])
          (Val.struct [Val.str "old"]) [0], none) := by
  refine ⟨⟨rfl, claim_C3_amended.1 capEnv (some []) capTy (Val.str "old") _ rfl⟩,
    rfl, ?_, rfl, claim_C3_amended.2.2 capEnv _ _ _ ⟨"one", [0]⟩ (some []) rfl rfl⟩
  have := claim_C3_amended.2.1 capEnv "one" ["x", "y"] (Val.str "old") capTy
    (fun _ _ => (Val.str "called", none)) rfl (fun e h => by simp [capTy] at h) rfl
  simpa using this

/--
Claim C5, counterexample: the direct sequence entry point does not treat a
single-empty-token list as a null signal: `ParseSlice` with `[""]` into a
sequence of integers performs per-element conversion, fails on the empty
token, and leaves the destination untouched instead of resetting it and
succeeding.
-/
theorem claim_C5_counterexample :
    ParseSlice noCaps (some [""]) (Ty.slice (Ty.int 64)) (Val.slice (some [Val.int 10]))
      = (Val.slice (some [Val.int 10]), some (PErr.parse "")) := rfl

/--
Claim C5, amended: the three null-equivalent signals reset the destination
only in the record-decoder path; at the direct entry point, a nil list
resets the destination to its zero form, an empty list produces an empty
non-nil sequence, and a single-empty-token list is converted per element
(failing when the element kind rejects empty text, succeeding e.g. for
string elements).
-/
theorem claim_C5_amended :
    (∀ (env : CapEnv) form rootTy root field input,
      Form.lookup form field.name = some input → isSliceEmpty input = true →
      decodeField env form rootTy root field = (zeroAt rootTy root field.path, none)) ∧
    (∀ (env : CapEnv) ty old, env.sliceParser ty = none →
      ParseSlice env none ty old = (zeroVal ty, none)) ∧
    (∀ (env : CapEnv) e old, env.sliceParser (Ty.slice e) = none →
      ParseSlice env (some []) (Ty.slice e) old = (Val.slice (some []), none)) ∧
    (∀ old, ParseSlice noCaps (some [""]) (Ty.slice (Ty.int 64)) old
      = (old, some (PErr.parse ""))) := by
  refine ⟨?_, ?_, ?_, ?_⟩
  · intro env form rootTy root field input hlook hempty
    unfold decodeField
    rw [hlook]
    dsimp only
    rw [hempty]
    simp
  · intro env ty old hcap
    unfold ParseSlice
    rw [hcap]
    rfl
  · intro env e old hcap
    unfold ParseSlice
    rw [hcap]
    rfl
  · intro old
    rfl

theorem claim_C5_amended_witness :
    Form.lookup [("one", some [""])] "one" = some (some [""]) ∧
    decodeField noCaps [("one", some [""])] (Ty.struct [GoField.mk "one" false true (Ty.slice (Ty.int 64))])
        (Val.struct [Val.slice (some [Val.int 10])]) ⟨"one", [0]⟩
      = (zeroAt (Ty.struct [GoField.mk "one" false true (Ty.slice (Ty.int 64))])
          (Val.struct [Val.slice (some [Val.int 10])]) [0], none) ∧
    ParseSlice noCaps none (Ty.slice (Ty.int 64)) (Val.slice (some [Val.int 10]))
      = (zeroVal (Ty.slice (Ty.int 64)), none) ∧
    ParseSlice noCaps (some []) (Ty.slice (Ty.int 64)) (Val.slice (some [Val.int 10]))
      = (Val.slice (some []), none) :=
  ⟨rfl,
   claim_C5_amended.1 noCaps _ _ _ ⟨"one", [0]⟩ (some [""]) rfl rfl,
   claim_C5_amended.2.1 noCaps _ _ rfl,
   claim_C5_amended.2.2.1 noCaps _ _ rfl⟩

/--
Claim C7: built-in boolean scalar conversion through `Parse` succeeds on
exactly the inputs `"true"` and `"false"`, writing `true` and `false`
respectively; every other input string fails with a conversion error
carrying the offending token, and the cell keeps its old value.
-/
theorem claim_C7_bool_strict (s : String) (old : Val) :
    Parse noCaps s Ty.bool old =
      if s = "true" then (Val.bool true, none)
      else if s = "false" then (Val.bool false, none)
      else (old, some (PErr.parse s)) := by
  by_cases h1 : s = "true"
  · subst h1
    rfl
  · by_cases h2 : s = "false"
    · subst h2
      rfl
    · simp only [if_neg h1, if_neg h2]
      unfold Parse noCaps
      dsimp only
      unfold parseBool
      rw [if_neg h1, if_neg h2]

/-- The embedded sub-record type of the repository's test fixtures
(`Embed`): two tagged fields, a string and an int. -/
def Embed : Ty :=
  Ty.struct [GoField.mk "embedStr" false true Ty.str,
             GoField.mk "embedNum" false true (Ty.int 64)]

/-- A record with `Embed` embedded by address (`PtrOuter`), plus one plain
tagged field. -/
def PtrOuter : Ty :=
  Ty.struct [GoField.mk "" true true (Ty.ptr Embed),
             GoField.mk "outerStr" false true Ty.str]

theorem jsonFields_PtrOuter :
    jsonFields PtrOuter =
      [⟨"embedStr", [0, 0]⟩, ⟨"embedNum", [0, 1]⟩, ⟨"outerStr", [1]⟩] := rfl

/--
Claim C4, counterexample: the name `embedStr` of the by-address sub-record
appears as a key of the input, yet the sub-record is not allocated: its value
is null-equivalent, so `decodeField` routes to `zeroAt`, which stops at the
nil pointer instead of allocating.
-/
theorem claim_C4_counterexample :
    Form.Decode noCaps [("embedStr", some [""])] (Ty.ptr PtrOuter)
        (Val.ptr (some (Val.struct [Val.ptr none, Val.str "keep"])))
      = (Val.ptr (some (Val.struct [Val.ptr none, Val.str "keep"])), none) := rfl

/--
Claim C4, amended: decoding a record with a sub-record embedded by address
leaves the sub-record reference exactly in its original state when none of
its external field names appears in the input, and also when a name appears
only with a null-equivalent value (contrary to the original claim, no
allocation happens then); the sub-record is allocated — and only the
matching fields are written, the rest staying zero — once one of its names
appears with a usable value.
-/
theorem claim_C4_amended :
    (∀ (form : Form) p s, Form.lookup form "embedStr" = none →
      Form.lookup form "embedNum" = none →
      ∃ s2 e, Form.Decode noCaps form (Ty.ptr PtrOuter)
          (Val.ptr (some (Val.struct [p, s])))
        = (Val.ptr (some (Val.struct [p, s2])), e)) ∧
    (Form.Decode noCaps [("embedStr", some [""])] (Ty.ptr PtrOuter)
        (Val.ptr (some (Val.struct [Val.ptr none, Val.str "keep"])))
      = (Val.ptr (some (Val.struct [Val.ptr none, Val.str "keep"])), none)) ∧
    (∀ t s, t ≠ "" →
      Form.Decode noCaps [("embedStr", some [t])] (Ty.ptr PtrOuter)
          (Val.ptr (some (Val.struct [Val.ptr none, s])))
        = (Val.ptr (some (Val.struct
            [Val.ptr (some (Val.struct [Val.str t, Val.int 0])), s])), none)) := by
  refine ⟨?_, rfl, ?_⟩
  · intro form p s h1 h2
    by_cases hlen : form.length = 0
    · exact ⟨s, none, by simp [Form.Decode, hlen]⟩
    · have step : Form.Decode noCaps form (Ty.ptr PtrOuter) (Val.ptr (some (Val.struct [p, s])))
          = ((Val.ptr (some (decodeFields noCaps form PtrOuter (Val.struct [p, s])
              (jsonFields PtrOuter)).1)),
            (decodeFields noCaps form PtrOuter (Val.struct [p, s])
              (jsonFields PtrOuter)).2.map PErr.badReq) := by
        simp only [Form.Decode, if_neg hlen]
        rfl
      have hf1 : decodeField noCaps form PtrOuter (Val.struct [p, s]) ⟨"embedStr", [0, 0]⟩
          = (Val.struct [p, s], none) := by
        unfold decodeField
        rw [h1]
      have hf2 : decodeField noCaps form PtrOuter (Val.struct [p, s]) ⟨"embedNum", [0, 1]⟩
          = (Val.struct [p, s], none) := by
        unfold decodeField
        rw [h2]
      have hf3 : ∃ s2, decodeField noCaps form PtrOuter (Val.struct [p, s]) ⟨"outerStr", [1]⟩
          = (Val.struct [p, s2], none) := by
        rcases h3 : Form.lookup form "outerStr" with _ | input
        · exact ⟨s, by unfold decodeField; rw [h3]⟩
        · by_cases h4 : isSliceEmpty input = true
          · refine ⟨Val.str "", ?_⟩
            unfold decodeField
            rw [h3]
            dsimp only
            rw [if_pos h4]
            simp only [PtrOuter]
            have hg : [GoField.mk "" true true (Ty.ptr Embed),
                GoField.mk "outerStr" false true Ty.str].get? 1
                = some (GoField.mk "outerStr" false true Ty.str) := rfl
            have hv : [p, s].get? 1 = some s := rfl
            rw [zeroAt_struct [] hg hv]
            simp only [GoField.ty]
            rw [zeroAt_nil]
            simp [List.set, zeroVal]
          · obtain ⟨tok, l, rfl⟩ : ∃ tok l, input = some (tok :: l) := by
              match input with
              | none => exact absurd rfl h4
              | some [] => exact absurd rfl h4
              | some (tok :: l) => exact ⟨tok, l, rfl⟩
            refine ⟨Val.str tok, ?_⟩
            unfold decodeField
            rw [h3]
            dsimp only
            rw [if_neg h4]
            simp only [PtrOuter]
            have hg : [GoField.mk "" true true (Ty.ptr Embed),
                GoField.mk "outerStr" false true Ty.str].get? 1
                = some (GoField.mk "outerStr" false true Ty.str) := rfl
            have hv : [p, s].get? 1 = some s := rfl
            rw [updateAt_struct [] _ hg hv]
            simp only [GoField.ty]
            rw [updateAt_nil _ _ (fun e h => by cases h)]
            simp [Parse, noCaps, List.set]
      obtain ⟨s2, hf3⟩ := hf3
      refine ⟨s2, none, ?_⟩
      rw [step, jsonFields_PtrOuter]
      simp only [decodeFields, hf1, hf2, hf3]
      rfl
  · intro t s ht
    have hlen : ¬((([("embedStr", some [t])] : Form).length) = 0) := by
      simp [List.length]
    have step : Form.Decode noCaps [("embedStr", some [t])] (Ty.ptr PtrOuter)
          (Val.ptr (some (Val.struct [Val.ptr none, s])))
        = ((Val.ptr (some (decodeFields noCaps [("embedStr", some [t])] PtrOuter
            (Val.struct [Val.ptr none, s]) (jsonFields PtrOuter)).1)),
          (decodeFields noCaps [("embedStr", some [t])] PtrOuter
            (Val.struct [Val.ptr none, s]) (jsonFields PtrOuter)).2.map PErr.badReq) := by
      simp only [Form.Decode, if_neg hlen]
      rfl
    have hlk1 : Form.lookup [("embedStr", some [t])] "embedStr" = some (some [t]) := by
      simp [Form.lookup]
    have hne : isSliceEmpty (some [t]) = false := by
      simp [isSliceEmpty, ht]
    have hf1 : decodeField noCaps [("embedStr", some [t])] PtrOuter
          (Val.struct [Val.ptr none, s]) ⟨"embedStr", [0, 0]⟩
        = (Val.struct [Val.ptr (some (Val.struct [Val.str t, Val.int 0])), s], none) := by
      unfold decodeField
      rw [hlk1]
      dsimp only
      rw [hne]
      simp only [Bool.false_eq_true, if_false]
      simp only [PtrOuter]
      have hg1 : [GoField.mk "" true true (Ty.ptr Embed),
          GoField.mk "outerStr" false true Ty.str].get? 0
          = some (GoField.mk "" true true (Ty.ptr Embed)) := rfl
      have hv1 : [Val.ptr none, s].get? 0 = some (Val.ptr none) := rfl
      rw [updateAt_struct [0] _ hg1 hv1]
      simp only [GoField.ty]
      rw [updateAt_ptr]
      dsimp only
      simp only [Embed]
      have hz : zeroVal (Ty.struct [GoField.mk "embedStr" false true Ty.str,
          GoField.mk "embedNum" false true (Ty.int 64)]) = Val.struct [Val.str "", Val.int 0] := rfl
      rw [hz]
      have hg2 : [GoField.mk "embedStr" false true Ty.str,
          GoField.mk "embedNum" false true (Ty.int 64)].get? 0
          = some (GoField.mk "embedStr" false true Ty.str) := rfl
      have hv2 : [Val.str "", Val.int 0].get? 0 = some (Val.str "") := rfl
      rw [updateAt_struct [] _ hg2 hv2]
      simp only [GoField.ty]
      rw [updateAt_nil _ _ (fun e h => by cases h)]
      simp [Parse, noCaps, List.set]
    have hlk2 : Form.lookup [("embedStr", some [t])] "embedNum" = none := by
      simp [Form.lookup]
    have hlk3 : Form.lookup [("embedStr", some [t])] "outerStr" = none := by
      simp [Form.lookup]
    have hf2 : decodeField noCaps [("embedStr", some [t])] PtrOuter
          (Val.struct [Val.ptr (some (Val.struct [Val.str t, Val.int 0])), s])
          ⟨"embedNum", [0, 1]⟩
        = (Val.struct [Val.ptr (some (Val.struct [Val.str t, Val.int 0])), s], none) := by
      unfold decodeField
      rw [hlk2]
    have hf3 : decodeField noCaps [("embedStr", some [t])] PtrOuter
          (Val.struct [Val.ptr (some (Val.struct [Val.str t, Val.int 0])), s])
          ⟨"outerStr", [1]⟩
        = (Val.struct [Val.ptr (some (Val.struct [Val.str t, Val.int 0])), s], none) := by
      unfold decodeField
      rw [hlk3]
    rw [step, jsonFields_PtrOuter]
    simp only [decodeFields, hf1, hf2, hf3]
    rfl


theorem claim_C4_amended_witness :
    (∃ s2 e, Form.Decode noCaps [("other", some ["x"])] (Ty.ptr PtrOuter)
        (Val.ptr (some (Val.struct [Val.ptr none, Val.str "keep"])))
      = (Val.ptr (some (Val.struct [Val.ptr none, s2])), e)) ∧
    Form.Decode noCaps [("embedStr", some ["v"])] (Ty.ptr PtrOuter)
        (Val.ptr (some (Val.struct [Val.ptr none, Val.str "keep"])))
      = (Val.ptr (some (Val.struct
          [Val.ptr (some (Val.struct [Val.str "v", Val.int 0])), Val.str "keep"])), none) :=
  ⟨claim_C4_amended.1 [("other", some ["x"])] (Val.ptr none) (Val.str "keep") rfl rfl,
   claim_C4_amended.2.2 "v" (Val.str "keep") (by decide)⟩

/--
Claim C6: the record-decoding loop is fail-fast without rollback: whenever
the loop reports an error, the resolved field list splits into a prefix that
decoded without error (its writes present in the state handed to the failing
field), the failing field itself — whose own result, errors included, is the
loop's result — and an untouched suffix the loop never reached; and the
keyed-source decoder surfaces exactly that first failure wrapped as a bad
request, keeping the partially updated record.
-/
theorem claim_C6_fail_fast :
    (∀ (env : CapEnv) (form : Form) rootTy root fields res e,
      decodeFields env form rootTy root fields = (res, some e) →
      ∃ pre fld post root2,
        fields = pre ++ fld :: post ∧
        decodeFields env form rootTy root pre = (root2, none) ∧
        decodeField env form rootTy root2 fld = (res, some e)) ∧
    (∀ (env : CapEnv) (form : Form) fs root res e,
      ¬ form.length = 0 →
      decodeFields env form (Ty.struct fs) root (jsonFields (Ty.struct fs)) = (res, some e) →
      Form.Decode env form (Ty.ptr (Ty.struct fs)) (Val.ptr (some root))
        = (Val.ptr (some res), some (PErr.badReq e))) := by
  constructor
  · intro env form rootTy root fields res e h
    induction fields generalizing root with
    | nil => exact absurd h (by simp [decodeFields])
    | cons fd rest ih =>
      replace h : (match (decodeField env form rootTy root fd).2 with
          | some err => ((decodeField env form rootTy root fd).1, some err)
          | none => decodeFields env form rootTy
              (decodeField env form rootTy root fd).1 rest)
          = (res, some e) := h
      rcases hr : decodeField env form rootTy root fd with ⟨v, err⟩
      rw [hr] at h
      cases err with
      | some e2 =>
        replace h : (v, some e2) = (res, some e) := h
        injection h with h1 h2
        subst h1
        injection h2 with h2
        subst h2
        exact ⟨[], fd, rest, root, rfl, rfl, hr⟩
      | none =>
        replace h : decodeFields env form rootTy v rest = (res, some e) := h
        obtain ⟨pre, fld, post, root2, h1, h2, h3⟩ := ih v h
        refine ⟨fd :: pre, fld, post, root2, by rw [h1]; rfl, ?_, h3⟩
        have hstep : decodeFields env form rootTy root (fd :: pre)
            = (match (decodeField env form rootTy root fd).2 with
              | some err => ((decodeField env form rootTy root fd).1, some err)
              | none => decodeFields env form rootTy
                  (decodeField env form rootTy root fd).1 pre) := rfl
        rw [hstep, hr]
        exact h2
  · intro env form fs root res e hlen h
    simp only [Form.Decode, if_neg hlen]
    show ((Val.ptr (some (decodeFields env form (Ty.struct fs) root
          (jsonFields (Ty.struct fs))).1)),
        Option.map PErr.badReq (decodeFields env form (Ty.struct fs) root
          (jsonFields (Ty.struct fs))).2) = _
    rw [h]
    rfl

theorem claim_C6_fail_fast_witness :
    (∃ pre fld post root2,
      ([⟨"a", [0]⟩, ⟨"b", [1]⟩, ⟨"c", [2]⟩] : List JField) = pre ++ fld :: post ∧
      decodeFields noCaps [("a", some ["x"]), ("b", some ["zz"]), ("c", some ["y"])]
        (Ty.struct [GoField.mk "a" false true Ty.str, GoField.mk "b" false true (Ty.int 64),
          GoField.mk "c" false true Ty.str])
        (Val.struct [Val.str "a0", Val.int 7, Val.str "c0"]) pre = (root2, none) ∧
      decodeField noCaps [("a", some ["x"]), ("b", some ["zz"]), ("c", some ["y"])]
        (Ty.struct [GoField.mk "a" false true Ty.str, GoField.mk "b" false true (Ty.int 64),
          GoField.mk "c" false true Ty.str])
        root2 fld
        = (Val.struct [Val.str "x", Val.int 0, Val.str "c0"], some (PErr.parse "zz"))) ∧
    Form.Decode noCaps [("a", some ["x"]), ("b", some ["zz"]), ("c", some ["y"])]
        (Ty.ptr (Ty.struct [GoField.mk "a" false true Ty.str,
          GoField.mk "b" false true (Ty.int 64), GoField.mk "c" false true Ty.str]))
        (Val.ptr (some (Val.struct [Val.str "a0", Val.int 7, Val.str "c0"])))
      = (Val.ptr (some (Val.struct [Val.str "x", Val.int 0, Val.str "c0"])),
        some (PErr.badReq (PErr.parse "zz"))) :=
  ⟨claim_C6_fail_fast.1 noCaps _ _ _ _ _ _ rfl,
   claim_C6_fail_fast.2 noCaps _ _ _ _ _ (by decide) rfl⟩

/--
Claim C8: round-trip of the built-in numeric kinds: every in-range signed
value, every in-range unsigned value, and every exactly representable float
value comes back unchanged when its decimal text is fed through the scalar
parser into the matching destination kind.
-/
theorem claim_C8_roundtrip :
    (∀ bits z (old : Val), bits ∈ ([8, 16, 32, 64] : List Nat) →
      -(2 ^ (bits - 1)) ≤ z → z ≤ 2 ^ (bits - 1) - 1 →
      Parse noCaps (intDecStr z) (Ty.int bits) old = (Val.int z, none)) ∧
    (∀ bits n (old : Val), bits ∈ ([8, 16, 32, 64] : List Nat) → n ≤ 2 ^ bits - 1 →
      Parse noCaps (natDecStr n) (Ty.uint bits) old = (Val.uint n, none)) ∧
    (∀ bits q (old : Val), bits ∈ ([32, 64] : List Nat) → IsRepr bits q →
      Parse noCaps (dyadicDecStr q) (Ty.float bits) old = (Val.float (.fin q), none)) := by
  refine ⟨?_, ?_, ?_⟩
  · intro bits z old _ hlo hhi
    show (Val.int (parseIntGo bits (intDecStr z)).1,
        Option.map (fun _ => PErr.parse (intDecStr z)) (parseIntGo bits (intDecStr z)).2) = _
    rw [parseIntGo_intDecStr hlo hhi]
    rfl
  · intro bits n old _ hhi
    show (Val.uint (parseUintGo bits (natDecStr n)).1,
        Option.map (fun _ => PErr.parse (natDecStr n)) (parseUintGo bits (natDecStr n)).2) = _
    rw [parseUintGo_natDecStr hhi]
    rfl
  · intro bits q old _ hrepr
    show (Val.float (parseFloatGo bits (dyadicDecStr q)).1,
        Option.map (fun _ => PErr.parse (dyadicDecStr q)) (parseFloatGo bits (dyadicDecStr q)).2) = _
    rw [parseFloatGo_dyadicDecStr hrepr]
    rfl

/-- `3/2` is exactly representable in a 64-bit float. -/
theorem isRepr_three_halves : IsRepr 64 (3 / 2 : ℚ) := by
  refine Or.inr ⟨⟨3, -1, by norm_num, by norm_num [fPrec], by norm_num [fEmin]⟩, ?_⟩
  rw [abs_of_pos (by norm_num)]
  unfold fMax fPrec fEmax
  norm_num

theorem claim_C8_roundtrip_witness :
    Parse noCaps (intDecStr 3) (Ty.int 64) (Val.int 0) = (Val.int 3, none) ∧
    Parse noCaps (intDecStr (-(2 ^ 63))) (Ty.int 64) (Val.int 0)
      = (Val.int (-(2 ^ 63)), none) ∧
    Parse noCaps (natDecStr 32) (Ty.uint 8) (Val.uint 7) = (Val.uint 32, none) ∧
    Parse noCaps (natDecStr (2 ^ 64 - 1)) (Ty.uint 64) (Val.uint 0)
      = (Val.uint (2 ^ 64 - 1), none) ∧
    Parse noCaps (dyadicDecStr (3 / 2)) (Ty.float 64) (Val.float (.fin 0))
      = (Val.float (.fin (3 / 2)), none) :=
  ⟨claim_C8_roundtrip.1 64 3 _ (by decide) (by decide) (by decide),
   claim_C8_roundtrip.1 64 (-(2 ^ 63)) _ (by decide) (by norm_num) (by norm_num),
   claim_C8_roundtrip.2.1 8 32 _ (by decide) (by decide),
   claim_C8_roundtrip.2.1 64 (2 ^ 64 - 1) _ (by decide) (by norm_num),
   claim_C8_roundtrip.2.2 64 (3 / 2) _ (by decide) isRepr_three_halves⟩


theorem parseIntGo_bad {bits : Nat} {s : String} {v : Int}
    (h : parseIntGo bits s = (v, some NumErr.bad)) : v = 0 := by
  unfold parseIntGo at h
  repeat' first
    | split at h
    | dsimp only at h
  all_goals injection h with h1 h2
  all_goals first
    | (exact h1.symm)
    | (simp at h2)

theorem parseIntGo_range {bits : Nat} {s : String} {v : Int}
    (h : parseIntGo bits s = (v, some NumErr.range)) :
    v = 2 ^ (bits - 1) - 1 ∨ v = -(2 ^ (bits - 1)) := by
  unfold parseIntGo at h
  repeat' first
    | split at h
    | dsimp only at h
  all_goals injection h with h1 h2
  all_goals first
    | (exact Or.inl h1.symm)
    | (exact Or.inr h1.symm)
    | (simp at h2)

theorem parseUintGo_bad {bits : Nat} {s : String} {v : Nat}
    (h : parseUintGo bits s = (v, some NumErr.bad)) : v = 0 := by
  unfold parseUintGo at h
  repeat' first
    | split at h
    | dsimp only at h
  all_goals injection h with h1 h2
  all_goals first
    | (exact h1.symm)
    | (simp at h2)

theorem parseUintGo_range {bits : Nat} {s : String} {v : Nat}
    (h : parseUintGo bits s = (v, some NumErr.range)) : v = 2 ^ bits - 1 := by
  unfold parseUintGo at h
  repeat' first
    | split at h
    | dsimp only at h
  all_goals injection h with h1 h2
  all_goals first
    | (exact h1.symm)
    | (simp at h2)

theorem roundF_range {bits : Nat} {q : ℚ} {f : FVal} (h : roundF bits q = (f, true)) :
    f = FVal.inf true ∨ f = FVal.inf false := by
  unfold roundF at h
  repeat' first
    | split at h
    | dsimp only at h
  all_goals injection h with h1 h2
  · simp at h2
  · rcases hq : decide (q < 0) with _ | _ <;> rw [hq] at h1
    · exact Or.inr h1.symm
    · exact Or.inl h1.symm
  · simp at h2
  · simp at h2

theorem roundF_range_proj {bits : Nat} {q : ℚ} (h : (roundF bits q).2 = true) :
    (roundF bits q).1 = FVal.inf true ∨ (roundF bits q).1 = FVal.inf false := by
  rcases hR : roundF bits q with ⟨g, rb⟩
  rw [hR] at h
  subst h
  simpa using roundF_range hR

theorem parseFloatGo_bad {bits : Nat} {s : String} {v : FVal}
    (h : parseFloatGo bits s = (v, some NumErr.bad)) : v = FVal.fin 0 := by
  unfold parseFloatGo at h
  repeat' first
    | split at h
    | dsimp only at h
  all_goals injection h with h1 h2
  all_goals first
    | (exact h1.symm)
    | (simp at h2)

theorem parseFloatGo_range {bits : Nat} {s : String} {v : FVal}
    (h : parseFloatGo bits s = (v, some NumErr.range)) :
    v = FVal.inf true ∨ v = FVal.inf false := by
  unfold parseFloatGo at h
  repeat' first
    | split at h
    | dsimp only at h
  all_goals injection h with h1 h2
  all_goals first
    | (rename_i hrerr
       rw [← h1]
       exact roundF_range_proj hrerr)
    | (simp at h2)

/-- Rounding to nearest sends a value in `[0, 1/2)` to zero. -/
theorem rneInt_eq_zero {x : ℚ} (h0 : 0 ≤ x) (h : x < 1 / 2) : rneInt x = 0 := by
  have hf : ⌊x⌋ = 0 := by
    rw [Int.floor_eq_zero_iff]
    exact ⟨h0, by linarith⟩
  unfold rneInt
  rw [hf]
  rw [if_pos (by push_cast; linarith)]

/-- `10 ^ (-324)` underflows a 64-bit float: correct rounding returns zero
with no error, as `strconv` flags only overflow. -/
theorem roundF_underflow : roundF 64 ((10 : ℚ) ^ (-324 : ℤ)) = (FVal.fin 0, false) := by
  have h2 : (0 : ℚ) < 2 := by norm_num
  have hqpos : (0 : ℚ) < (10 : ℚ) ^ (-324 : ℤ) := zpow_pos (by norm_num) _
  have hpow : ∀ a b : Nat, ((2 : ℚ) ^ (a : ℤ) < (10 : ℚ) ^ (b : ℤ)) ↔ ((2 : ℚ) ^ a < (10 : ℚ) ^ b) := by
    intro a b
    rw [zpow_natCast, zpow_natCast]
  have hlt1 : (10 : ℚ) ^ (-324 : ℤ) < (2 : ℚ) ^ (-1022 : ℤ) := by
    rw [show ((-324 : ℤ)) = -(324 : Nat) from rfl, show ((-1022 : ℤ)) = -(1022 : Nat) from rfl,
      zpow_neg, zpow_neg]
    rw [inv_lt_inv₀ (zpow_pos (by norm_num) _) (zpow_pos h2 _)]
    rw [hpow]
    norm_num
  have hlt2 : (10 : ℚ) ^ (-324 : ℤ) < (2 : ℚ) ^ (-1075 : ℤ) := by
    rw [show ((-324 : ℤ)) = -(324 : Nat) from rfl, show ((-1075 : ℤ)) = -(1075 : Nat) from rfl,
      zpow_neg, zpow_neg]
    rw [inv_lt_inv₀ (zpow_pos (by norm_num) _) (zpow_pos h2 _)]
    rw [hpow]
    norm_num
  have hlog : Int.log 2 |(10 : ℚ) ^ (-324 : ℤ)| < -1022 := by
    rw [abs_of_pos hqpos]
    exact (Int.lt_zpow_iff_log_lt (by norm_num : 1 < 2) hqpos).mp (by exact_mod_cast hlt1)
  have hg : max (fEmin 64) (Int.log 2 |(10 : ℚ) ^ (-324 : ℤ)| - ((fPrec 64 : ℤ) - 1)) = -1074 := by
    have he : fEmin 64 = -1074 := by norm_num [fEmin]
    have hp : ((fPrec 64 : ℕ) : ℤ) = 53 := by norm_num [fPrec]
    rw [he, hp]
    exact max_eq_left (by omega)
  have hx0 : (0 : ℚ) ≤ (10 : ℚ) ^ (-324 : ℤ) / (2 : ℚ) ^ (-1074 : ℤ) :=
    le_of_lt (div_pos hqpos (zpow_pos h2 _))
  have hxh : (10 : ℚ) ^ (-324 : ℤ) / (2 : ℚ) ^ (-1074 : ℤ) < 1 / 2 := by
    rw [div_lt_iff₀ (zpow_pos h2 _)]
    calc (10 : ℚ) ^ (-324 : ℤ) < (2 : ℚ) ^ (-1075 : ℤ) := hlt2
      _ = 1 / 2 * (2 : ℚ) ^ (-1074 : ℤ) := by
          rw [show ((-1075 : ℤ)) = (-1 : ℤ) + (-1074 : ℤ) from rfl,
            zpow_add₀ (ne_of_gt h2)]
          norm_num
  unfold roundF
  rw [if_neg (ne_of_gt hqpos)]
  dsimp only
  rw [hg, rneInt_eq_zero hx0 hxh]
  rw [show ((0 : ℤ) : ℚ) * (2 : ℚ) ^ (-1074 : ℤ) = 0 by norm_num]
  rw [if_neg (by norm_num [fMax, fPrec, fEmax] : ¬ fMax 64 < |(0 : ℚ)|)]
  rw [if_pos rfl]

/-- Fully symbolic stepping of `parseFloatGo` on an underscore-free,
non-special, unsigned input, isolating the rounding step. -/
theorem parseFloatGo_step {bits : Nat} {s : String} {core : List Char} {q : ℚ}
    {f : FVal} {rerr : Bool}
    (h1 : parseSpecial s.data = none)
    (h2 : s.data.contains '_' = false)
    (h3 : splitSign (s.data.filter (· ≠ '_')) = (false, core))
    (h4 : floatDigitsVal core = some q)
    (h5 : roundF bits q = (f, rerr)) :
    parseFloatGo bits s = (f, if rerr = true then some NumErr.range else none) := by
  unfold parseFloatGo
  rw [h1]
  dsimp only
  rw [h2]
  simp only [Bool.false_and, Bool.false_eq_true, if_false]
  rw [h3]
  dsimp only
  rw [h4]
  dsimp only
  simp only [Bool.false_eq_true, if_false]
  rw [h5]

/-- The underflowing text `1e-324` converts successfully to zero: no error
is reported, only the silent loss to zero. -/
theorem parseFloatGo_underflow :
    parseFloatGo 64 "1e-324" = (FVal.fin 0, none) := by
  have hv : (((decAccum ['1'] : Nat) : ℚ)
      * (10 : ℚ) ^ (-((decAccum ['3', '2', '4'] : Nat) : ℤ))) = (10 : ℚ) ^ (-324 : ℤ) := by
    rw [show decAccum ['1'] = 1 from rfl, show decAccum ['3', '2', '4'] = 324 from rfl]
    norm_num
  have h5 : roundF 64 (((decAccum ['1'] : Nat) : ℚ)
      * (10 : ℚ) ^ (-((decAccum ['3', '2', '4'] : Nat) : ℤ))) = (FVal.fin 0, false) := by
    rw [hv]
    exact roundF_underflow
  have h1 : parseSpecial ("1e-324").data = none := rfl
  have h2 : ("1e-324").data.contains '_' = false := rfl
  have h3 : splitSign (("1e-324").data.filter (· ≠ '_')) = (false, ("1e-324").data) := rfl
  have h4 : floatDigitsVal ("1e-324").data
      = some (((decAccum ['1'] : Nat) : ℚ)
        * (10 : ℚ) ^ (-((decAccum ['3', '2', '4'] : Nat) : ℤ))) := rfl
  rw [parseFloatGo_step h1 h2 h3 h4 h5]
  rfl

/-- Rounding to nearest never falls below the floor. -/
theorem rneInt_ge_floor (x : ℚ) : ⌊x⌋ ≤ rneInt x := by
  unfold rneInt
  split_ifs <;> omega

/-- `2 * 10 ^ 308` overflows a 64-bit float: correct rounding returns
positive infinity with a range error. -/
theorem roundF_overflow :
    roundF 64 ((2 : ℚ) * (10 : ℚ) ^ (308 : ℤ)) = (FVal.inf false, true) := by
  have h2 : (0 : ℚ) < 2 := by norm_num
  set Q : ℚ := (2 : ℚ) * (10 : ℚ) ^ (308 : ℤ) with hQdef
  have hqpos : (0 : ℚ) < Q := by
    have := zpow_pos (show (0 : ℚ) < 10 by norm_num) (308 : ℤ)
    positivity
  have hq1 : (2 : ℚ) ^ (1024 : ℤ) ≤ Q := by
    rw [hQdef, show ((1024 : ℤ)) = ((1024 : ℕ) : ℤ) from rfl,
      show ((308 : ℤ)) = ((308 : ℕ) : ℤ) from rfl, zpow_natCast, zpow_natCast]
    norm_num
  have hq2 : Q < (2 : ℚ) ^ (1025 : ℤ) := by
    rw [hQdef, show ((1025 : ℤ)) = ((1025 : ℕ) : ℤ) from rfl,
      show ((308 : ℤ)) = ((308 : ℕ) : ℤ) from rfl, zpow_natCast, zpow_natCast]
    norm_num
  have hlog_ge : (1024 : ℤ) ≤ Int.log 2 Q :=
    (Int.zpow_le_iff_le_log (by norm_num : 1 < 2) hqpos).mp (by exact_mod_cast hq1)
  have hlog_lt : Int.log 2 Q < 1025 :=
    (Int.lt_zpow_iff_log_lt (by norm_num : 1 < 2) hqpos).mp (by exact_mod_cast hq2)
  have hlog : Int.log 2 |Q| = 1024 := by
    rw [abs_of_pos hqpos]
    omega
  have hg : max (fEmin 64) (Int.log 2 |Q| - ((fPrec 64 : ℤ) - 1)) = 972 := by
    have he : fEmin 64 = -1074 := by norm_num [fEmin]
    have hp : ((fPrec 64 : ℕ) : ℤ) = 53 := by norm_num [fPrec]
    rw [he, hp, hlog]
    norm_num
  have hx : ((2 ^ 52 : ℤ) : ℚ) ≤ Q / (2 : ℚ) ^ (972 : ℤ) := by
    rw [le_div_iff₀ (zpow_pos h2 _)]
    calc ((2 ^ 52 : ℤ) : ℚ) * (2 : ℚ) ^ (972 : ℤ)
        = (2 : ℚ) ^ (1024 : ℤ) := by
          rw [show ((2 ^ 52 : ℤ) : ℚ) = (2 : ℚ) ^ (52 : ℤ) by norm_num,
            ← zpow_add₀ (ne_of_gt h2)]
          norm_num
      _ ≤ Q := hq1
  have hrne : (2 ^ 52 : ℤ) ≤ rneInt (Q / (2 : ℚ) ^ (972 : ℤ)) :=
    le_trans (Int.le_floor.mpr hx) (rneInt_ge_floor _)
  have hrne_q : (2 : ℚ) ^ (1024 : ℤ)
      ≤ (rneInt (Q / (2 : ℚ) ^ (972 : ℤ)) : ℚ) * (2 : ℚ) ^ (972 : ℤ) := by
    have hc : ((2 ^ 52 : ℤ) : ℚ) ≤ (rneInt (Q / (2 : ℚ) ^ (972 : ℤ)) : ℚ) := by
      exact_mod_cast hrne
    calc (2 : ℚ) ^ (1024 : ℤ) = ((2 ^ 52 : ℤ) : ℚ) * (2 : ℚ) ^ (972 : ℤ) := by
          rw [show ((2 ^ 52 : ℤ) : ℚ) = (2 : ℚ) ^ (52 : ℤ) by norm_num,
            ← zpow_add₀ (ne_of_gt h2)]
          norm_num
      _ ≤ _ := mul_le_mul_of_nonneg_right hc (le_of_lt (zpow_pos h2 _))
  have hfm : fMax 64 < (2 : ℚ) ^ (1024 : ℤ) := by
    unfold fMax fPrec fEmax
    norm_num
  have hpos : (0 : ℚ) < (rneInt (Q / (2 : ℚ) ^ (972 : ℤ)) : ℚ) * (2 : ℚ) ^ (972 : ℤ) :=
    lt_of_lt_of_le (zpow_pos h2 _) hrne_q
  have hlt : fMax 64 < |(rneInt (Q / (2 : ℚ) ^ (972 : ℤ)) : ℚ) * (2 : ℚ) ^ (972 : ℤ)| := by
    rw [abs_of_pos hpos]
    exact lt_of_lt_of_le hfm hrne_q
  unfold roundF
  rw [if_neg (ne_of_gt hqpos)]
  dsimp only
  rw [hg]
  rw [if_pos hlt]
  rw [show (decide (Q < 0)) = false from decide_eq_false (not_lt.mpr (le_of_lt hqpos))]

/-- The overflowing text `2e308` is a range error whose written value is
positive infinity, exactly as `strconv.ParseFloat` documents. -/
theorem parseFloatGo_overflow :
    parseFloatGo 64 "2e308" = (FVal.inf false, some NumErr.range) := by
  have hv : (((decAccum ['2'] : Nat) : ℚ)
      * (10 : ℚ) ^ (((decAccum ['3', '0', '8'] : Nat) : ℤ)))
      = (2 : ℚ) * (10 : ℚ) ^ (308 : ℤ) := by
    rw [show decAccum ['2'] = 2 from rfl, show decAccum ['3', '0', '8'] = 308 from rfl]
    norm_num
  have h5 : roundF 64 (((decAccum ['2'] : Nat) : ℚ)
      * (10 : ℚ) ^ (((decAccum ['3', '0', '8'] : Nat) : ℤ))) = (FVal.inf false, true) := by
    rw [hv]
    exact roundF_overflow
  have h1 : parseSpecial ("2e308").data = none := rfl
  have h2 : ("2e308").data.contains '_' = false := rfl
  have h3 : splitSign (("2e308").data.filter (· ≠ '_')) = (false, ("2e308").data) := rfl
  have h4 : floatDigitsVal ("2e308").data
      = some (((decAccum ['2'] : Nat) : ℚ)
        * (10 : ℚ) ^ (((decAccum ['3', '0', '8'] : Nat) : ℤ))) := rfl
  rw [parseFloatGo_step h1 h2 h3 h4 h5]
  rfl

/--
Claim C9: built-in numeric conversion is not atomic on failure: for the
integer, unsigned and float kinds the cell receives the `strconv` result
even when an error is reported. Syntactically invalid input writes zero;
an out-of-range signed or unsigned value writes the kind's clamped
boundary; an out-of-range float — a range error arises only on overflow —
writes the kind's saturated extreme, an infinity.
-/
theorem claim_C9_nonatomic :
    (∀ bits (s : String) (old : Val), Parse noCaps s (Ty.int bits) old
        = (Val.int (parseIntGo bits s).1,
          Option.map (fun _ => PErr.parse s) (parseIntGo bits s).2)) ∧
    (∀ bits s v, parseIntGo bits s = (v, some NumErr.bad) → v = 0) ∧
    (∀ bits s v, parseIntGo bits s = (v, some NumErr.range) →
      v = 2 ^ (bits - 1) - 1 ∨ v = -(2 ^ (bits - 1))) ∧
    (∀ bits (s : String) (old : Val), Parse noCaps s (Ty.uint bits) old
        = (Val.uint (parseUintGo bits s).1,
          Option.map (fun _ => PErr.parse s) (parseUintGo bits s).2)) ∧
    (∀ bits s v, parseUintGo bits s = (v, some NumErr.bad) → v = 0) ∧
    (∀ bits s v, parseUintGo bits s = (v, some NumErr.range) → v = 2 ^ bits - 1) ∧
    (∀ bits (s : String) (old : Val), Parse noCaps s (Ty.float bits) old
        = (Val.float (parseFloatGo bits s).1,
          Option.map (fun _ => PErr.parse s) (parseFloatGo bits s).2)) ∧
    (∀ bits s v, parseFloatGo bits s = (v, some NumErr.bad) → v = FVal.fin 0) ∧
    (∀ bits s v, parseFloatGo bits s = (v, some NumErr.range) →
      v = FVal.inf true ∨ v = FVal.inf false) :=
  ⟨fun _ _ _ => rfl, fun _ _ _ => parseIntGo_bad, fun _ _ _ => parseIntGo_range,
   fun _ _ _ => rfl, fun _ _ _ => parseUintGo_bad, fun _ _ _ => parseUintGo_range,
   fun _ _ _ => rfl, fun _ _ _ => parseFloatGo_bad, fun _ _ _ => parseFloatGo_range⟩

theorem claim_C9_nonatomic_witness :
    Parse noCaps "zz" (Ty.int 8) (Val.int 5)
      = (Val.int (parseIntGo 8 "zz").1,
        Option.map (fun _ => PErr.parse "zz") (parseIntGo 8 "zz").2) ∧
    ((0 : Int) = 0) ∧
    ((127 : Int) = 2 ^ (8 - 1) - 1 ∨ (127 : Int) = -(2 ^ (8 - 1))) ∧
    ((255 : Nat) = 2 ^ 8 - 1) ∧
    (FVal.fin 0 = FVal.fin 0) ∧
    (FVal.inf false = FVal.inf true ∨ FVal.inf false = FVal.inf false) :=
  ⟨claim_C9_nonatomic.1 8 "zz" (Val.int 5),
   claim_C9_nonatomic.2.1 8 "zz" 0 rfl,
   claim_C9_nonatomic.2.2.1 8 "99999" 127 rfl,
   claim_C9_nonatomic.2.2.2.2.2.1 8 "999" 255 rfl,
   claim_C9_nonatomic.2.2.2.2.2.2.2.1 64 "xyz" (FVal.fin 0) rfl,
   claim_C9_nonatomic.2.2.2.2.2.2.2.2 64 "2e308" (FVal.inf false) parseFloatGo_overflow⟩

/--
Claim C10: a keyed source with no entries decodes successfully and leaves any
destination untouched, skipping destination validation entirely: the invalid
destinations that a non-empty source rejects as bad requests (a non-pointer,
a nil pointer) pass silently when the source is empty.
-/
theorem claim_C10_empty_source :
    (∀ (env : CapEnv) (form : Form) (argTy : Ty) (arg : Val), form.length = 0 →
      Form.Decode env form argTy arg = (arg, none)) ∧
    Form.Decode noCaps [] (Ty.int 64) (Val.int 5) = (Val.int 5, none) ∧
    Form.Decode noCaps [] (Ty.ptr (Ty.struct [])) (Val.ptr none) = (Val.ptr none, none) ∧
    Form.Decode noCaps [] Ty.str (Val.str "x") = (Val.str "x", none) ∧
    Form.Decode noCaps [("k", some ["v"])] (Ty.int 64) (Val.int 5)
      = (Val.int 5, some (PErr.badReq PErr.invalidPtr)) ∧
    Form.Decode noCaps [("k", some ["v"])] (Ty.ptr (Ty.struct [])) (Val.ptr none)
      = (Val.ptr none, some (PErr.badReq PErr.invalidPtr)) := by
  refine ⟨?_, rfl, rfl, rfl, rfl, rfl⟩
  intro env form argTy arg h
  simp [Form.Decode, h]

theorem claim_C10_empty_source_witness :
    Form.Decode noCaps [] (Ty.uint 8) (Val.bool true) = (Val.bool true, none) :=
  claim_C10_empty_source.1 noCaps [] (Ty.uint 8) (Val.bool true) rfl


/-! ### The JSON key-set scanner (`rd_internal_json.go`)

The scanner is embedded at rune (`Char`) granularity over the remaining
input suffix. Go's byte-indexed charsets treat every byte of a multi-byte
rune as a non-member, and the only place a rune is consumed as a unit
(`skipChar`, inside string bodies) is also a single step here, so error
and key-collection behavior coincide. A panic of the Go scanner is `none`;
`some` carries the remaining suffix and the keys added to the output set,
in insertion order (Go stores them in a map: membership in the list is
membership in the set). The fuel only makes the loops structural; the
bound chosen by `parseSet` is proven sufficient for every scanned prefix.
-/

/-- The two-quote character (`"`). -/
def quoteC : Char := Char.ofNat 34

/-- The backslash character. -/
def bslashC : Char := Char.ofNat 92

/-- The opening-brace character. -/
def lbraceC : Char := Char.ofNat 123

/-- The closing-brace character. -/
def rbraceC : Char := Char.ofNat 125

/-- The `whitespace` charset (`"\r\n\t\v "`). -/
def wsChar (c : Char) : Bool :=
  c = ' ' || c = Char.ofNat 13 || c = Char.ofNat 10 || c = Char.ofNat 9 || c = Char.ofNat 11

/-- The `delims` charset: whitespace plus the structural bytes. -/
def delimChar (c : Char) : Bool :=
  wsChar c || c = lbraceC || c = rbraceC || c = '[' || c = ']' || c = quoteC || c = ','

/-- The `exps` charset. -/
def expChar (c : Char) : Bool := c = 'E' || c = 'e'

/-- The `signs` charset. -/
def signChar (c : Char) : Bool := c = '+' || c = '-'

/-- The whitespace-skipping loop of `par.next`: the suffix from the first
non-whitespace character (empty when `next` reports no more input). -/
def skipWs : List Char → List Char
  | [] => []
  | c :: rest => if wsChar c then skipWs rest else c :: rest

mutual
/-- Embedding of `par.str` (entered after the opening quote): the returned
pair is the raw content between the quotes - escape pairs included, exactly
the slice `par.key` captures - and the suffix after the closing quote. -/
def pStr : List Char → Option (List Char × List Char)
  | [] => none
  | c :: rest =>
    if c = quoteC then some ([], rest)
    else if c = bslashC then (pEsc rest).map (fun p => (c :: p.1, p.2))
    else (pStr rest).map (fun p => (c :: p.1, p.2))

/-- The blind single-character skip after a backslash (`par.esc`). -/
def pEsc : List Char → Option (List Char × List Char)
  | [] => none
  | c2 :: rest2 => (pStr rest2).map (fun p => (c2 :: p.1, p.2))
end

mutual
/-- The integer-part loop of `par.num` (entered after the first digit):
stops without consuming at a delimiter or the end. -/
def pNumTail : List Char → Option (List Char)
  | [] => some []
  | c :: rest =>
    if delimChar c then some (c :: rest)
    else if isDigitGo c then pNumTail rest
    else if c = '.' then pMant rest
    else if expChar c then pExpSign rest
    else none

/-- The `mant` entry: the character after the dot must be a digit. -/
def pMant : List Char → Option (List Char)
  | [] => none
  | c :: rest => if isDigitGo c then pMantTail rest else none

/-- The fraction loop: digits until a delimiter, the end, or an exponent. -/
def pMantTail : List Char → Option (List Char)
  | [] => some []
  | c :: rest =>
    if delimChar c then some (c :: rest)
    else if isDigitGo c then pMantTail rest
    else if expChar c then pExpSign rest
    else none

/-- The `exp` entry: an optional sign, then at least one digit. -/
def pExpSign : List Char → Option (List Char)
  | [] => none
  | c :: rest =>
    if signChar c then
      match rest with
      | [] => none
      | c2 :: rest2 => if isDigitGo c2 then pExpTail rest2 else none
    else if isDigitGo c then pExpTail rest
    else none

/-- The exponent-digit loop: digits until a delimiter or the end. -/
def pExpTail : List Char → Option (List Char)
  | [] => some []
  | c :: rest =>
    if delimChar c then some (c :: rest)
    else if isDigitGo c then pExpTail rest
    else none
end

/-- The input after a fixed prefix, or `none` when the prefix does not
match (`strings.HasPrefix`). -/
def dropPre : List Char → List Char → Option (List Char)
  | [], i => some i
  | _ :: _, [] => none
  | p :: ps, c :: cs => if c = p then dropPre ps cs else none

/-- Embedding of `par.ident`: the literal tail must follow, ending at a
delimiter or the end of input. -/
def pIdent (pre : List Char) (i : List Char) : Option (List Char) :=
  match dropPre pre i with
  | none => none
  | some rest =>
    match rest with
    | [] => some []
    | c :: _ => if delimChar c then some rest else none

mutual
/-- Embedding of `par.any`: skip whitespace, dispatch on the first
character; `lvl` and the collected keys thread through. -/
def pAny (fuel : Nat) (i : List Char) (lvl : Nat) (out : List String) :
    Option (List Char × List String) :=
  match fuel with
  | 0 => none
  | fuel + 1 =>
    match skipWs i with
    | [] => none
    | c :: rest =>
      if isDigitGo c then (pNumTail rest).map (fun r => (r, out))
      else if c = lbraceC then pObjLoop fuel 0 rest (lvl + 1) out
      else if c = '[' then pArrLoop fuel 0 rest (lvl + 1) out
      else if c = quoteC then (pStr rest).map (fun p => (p.2, out))
      else if c = 'n' then (pIdent ('u' :: 'l' :: 'l' :: []) rest).map (fun r => (r, out))
      else if c = 't' then (pIdent ('r' :: 'u' :: 'e' :: []) rest).map (fun r => (r, out))
      else if c = 'f' then (pIdent ('a' :: 'l' :: 's' :: 'e' :: []) rest).map (fun r => (r, out))
      else if c = '-' then
        match rest with
        | [] => none
        | c2 :: rest2 =>
          if isDigitGo c2 then (pNumTail rest2).map (fun r => (r, out)) else none
      else none
termination_by structural fuel

/-- Embedding of the `par.obj` state machine, entered with `lvl` already
incremented: mode 0 `beforeKey`, 1 `afterKey`, 2 `afterColon`,
3 `afterValue`, 4 `afterComma`. A key is added exactly when the
surrounding object sits at level 1. -/
def pObjLoop (fuel : Nat) (mode : Nat) (i : List Char) (lvl : Nat) (out : List String) :
    Option (List Char × List String) :=
  match fuel with
  | 0 => none
  | fuel + 1 =>
    match skipWs i with
    | [] => none
    | c :: rest =>
      match mode with
      | 0 =>
        if c = rbraceC then some (rest, out)
        else if c = quoteC then
          match pStr rest with
          | none => none
          | some p => pObjLoop fuel 1 p.2 lvl (if lvl = 1 then out ++ [⟨p.1⟩] else out)
        else none
      | 1 => if c = ':' then pObjLoop fuel 2 rest lvl out else none
      | 2 =>
        match pAny fuel (c :: rest) lvl out with
        | none => none
        | some r => pObjLoop fuel 3 r.1 lvl r.2
      | 3 =>
        if c = rbraceC then some (rest, out)
        else if c = ',' then pObjLoop fuel 4 rest lvl out
        else none
      | 4 => if c = quoteC then pObjLoop fuel 0 (c :: rest) lvl out else none
      | _ + 5 => none
termination_by structural fuel

/-- Embedding of the `par.arr` state machine, entered with `lvl` already
incremented: mode 0 `beforeVal`, 1 `afterVal`, 2 `afterComma`. -/
def pArrLoop (fuel : Nat) (mode : Nat) (i : List Char) (lvl : Nat) (out : List String) :
    Option (List Char × List String) :=
  match fuel with
  | 0 => none
  | fuel + 1 =>
    match skipWs i with
    | [] => none
    | c :: rest =>
      match mode with
      | 0 =>
        if c = ']' then some (rest, out)
        else
          match pAny fuel (c :: rest) lvl out with
          | none => none
          | some r => pArrLoop fuel 1 r.1 lvl r.2
      | 1 =>
        if c = ']' then some (rest, out)
        else if c = ',' then pArrLoop fuel 2 rest lvl out
        else none
      | 2 =>
        match pAny fuel (c :: rest) lvl out with
        | none => none
        | some r => pArrLoop fuel 1 r.1 lvl r.2
      | _ + 3 => none
termination_by structural fuel
end

/-- Embedding of `par.top`: an object scan begins only when the first
non-whitespace character is an opening brace; anything else returns the
empty set silently. -/
def pTop (fuel : Nat) (i : List Char) : Option (List Char × List String) :=
  match skipWs i with
  | [] => some ([], [])
  | c :: rest => if c = lbraceC then pObjLoop fuel 0 rest 1 [] else some (c :: rest, [])

/-- Embedding of `parseSet` (`rd_json.go` delegates `Json.Set` here): the
keys scanned from the source, or `none` for the panic the Go scanner
raises on malformed object content. The fuel bound is proven sufficient
for every input the scan consumes. -/
def parseSet (src : String) : Option (List String) :=
  (pTop (3 * src.data.length + 4) src.data).map (fun r => r.2)


/-! ### Well-formed JSON documents and their canonical text -/

/-- One rendered unit of a JSON string body: a plain character, or an
escape pair (a backslash and the single character the scanner skips
blindly after it — which covers `\u` codes, whose following hex digits
render as plain characters). -/
inductive JStrItem where
  | raw (c : Char)
  | esc (c : Char)
deriving DecidableEq, Repr

/-- The rendered text of a string body. -/
def renderItems : List JStrItem → List Char
  | [] => []
  | .raw c :: rest => c :: renderItems rest
  | .esc c :: rest => bslashC :: c :: renderItems rest

/-- A plain character of a string body may not end the string or open an
escape. -/
def wfItems : List JStrItem → Bool
  | [] => true
  | .raw c :: rest => !(c = quoteC) && !(c = bslashC) && wfItems rest
  | .esc _ :: rest => wfItems rest

/-- A JSON number in the grammar the scanner accepts: optional minus,
integer digits, optional fraction digits, optional exponent with an
optional sign. -/
inductive JNum where
  | mk (neg : Bool) (ip : List Char) (frac : Option (List Char))
      (ex : Option (Option Char × List Char))
deriving DecidableEq, Repr

/-- Rendered optional exponent sign. -/
def sgRender : Option Char → List Char
  | none => []
  | some c => [c]

/-- Rendered optional fraction part. -/
def frRender : Option (List Char) → List Char
  | none => []
  | some l => '.' :: l

/-- Rendered optional exponent part. -/
def exRender : Option (Option Char × List Char) → List Char
  | none => []
  | some (sg, l) => 'e' :: (sgRender sg ++ l)

/-- A well-formed optional exponent sign. -/
def sgOK : Option Char → Bool
  | none => true
  | some c => signChar c

/-- A well-formed optional fraction part. -/
def frOK : Option (List Char) → Bool
  | none => true
  | some l => !(l = []) && l.all isDigitGo

/-- A well-formed optional exponent part. -/
def exOK : Option (Option Char × List Char) → Bool
  | none => true
  | some (sg, l) => sgOK sg && !(l = []) && l.all isDigitGo

/-- The rendered text of a number. -/
def renderNum : JNum → List Char
  | .mk neg ip frac ex =>
    (if neg then ['-'] else []) ++ ip ++ frRender frac ++ exRender ex

/-- Digit groups are nonempty and all-decimal; an exponent sign is `+` or
`-`. -/
def wfNum : JNum → Bool
  | .mk _ ip frac ex =>
    !(ip = []) && ip.all isDigitGo && frOK frac && exOK ex

/-- A JSON value: scalars, sequences and objects (an object entry is a
key body and a value). -/
inductive JVal where
  | num (n : JNum)
  | str (body : List JStrItem)
  | null
  | tru
  | fals
  | arr (elems : List JVal)
  | obj (entries : List (List JStrItem × JVal))
deriving Repr

mutual
/-- Canonical text of a value (no interior whitespace). -/
def renderVal : JVal → List Char
  | .num n => renderNum n
  | .str b => quoteC :: renderItems b ++ [quoteC]
  | .null => 'n' :: 'u' :: 'l' :: 'l' :: []
  | .tru => 't' :: 'r' :: 'u' :: 'e' :: []
  | .fals => 'f' :: 'a' :: 'l' :: 's' :: 'e' :: []
  | .arr es => '[' :: renderElems es ++ [']']
  | .obj es => lbraceC :: renderEntries es ++ [rbraceC]

/-- Comma-separated element texts. -/
def renderElems : List JVal → List Char
  | [] => []
  | [v] => renderVal v
  | v :: v2 :: rest => renderVal v ++ ',' :: renderElems (v2 :: rest)

/-- Comma-separated `"key":value` texts. -/
def renderEntries : List (List JStrItem × JVal) → List Char
  | [] => []
  | [(k, v)] => quoteC :: renderItems k ++ quoteC :: ':' :: renderVal v
  | (k, v) :: e2 :: rest =>
    quoteC :: renderItems k ++ quoteC :: ':' :: renderVal v ++ ',' :: renderEntries (e2 :: rest)
end

mutual
/-- Well-formedness of a value. -/
def wfVal : JVal → Bool
  | .num n => wfNum n
  | .str b => wfItems b
  | .null => true
  | .tru => true
  | .fals => true
  | .arr es => wfElems es
  | .obj es => wfEntries es

/-- Well-formedness of an element list. -/
def wfElems : List JVal → Bool
  | [] => true
  | v :: rest => wfVal v && wfElems rest

/-- Well-formedness of an entry list. -/
def wfEntries : List (List JStrItem × JVal) → Bool
  | [] => true
  | (k, v) :: rest => wfItems k && wfVal v && wfEntries rest
end

/-- The external names of an entry list, in order. -/
def keysOf : List (List JStrItem × JVal) → List String
  | [] => []
  | (k, _) :: rest => (⟨renderItems k⟩ : String) :: keysOf rest

mutual
/-- A step bound for the fueled scanner on a rendered value. -/
def fcost : JVal → Nat
  | .num _ => 1
  | .str _ => 1
  | .null => 1
  | .tru => 1
  | .fals => 1
  | .arr es => fcostElems es + 2
  | .obj es => fcostEntries es + 2

/-- Step bound for scanning rendered elements inside a sequence. -/
def fcostElems : List JVal → Nat
  | [] => 0
  | v :: rest => fcost v + 3 + fcostElems rest

/-- Step bound for scanning rendered entries inside an object. -/
def fcostEntries : List (List JStrItem × JVal) → Nat
  | [] => 0
  | (_, v) :: rest => fcost v + 6 + fcostEntries rest
end


/-- A decimal digit is inert for every scanner charset and dispatch
character. -/
theorem isDigitGo_scan_facts {c : Char} (h : isDigitGo c = true) :
    wsChar c = false ∧ delimChar c = false ∧ c ≠ lbraceC ∧ c ≠ '[' ∧ c ≠ quoteC ∧
    c ≠ 'n' ∧ c ≠ 't' ∧ c ≠ 'f' ∧ c ≠ '-' ∧ c ≠ '.' ∧ expChar c = false ∧
    signChar c = false := by
  obtain ⟨h1, h2⟩ := isDigitGo_toNat h
  have hws : wsChar c = false := by
    simp only [wsChar, Bool.or_eq_false_iff, decide_eq_false_iff_not]
    refine ⟨⟨⟨⟨?_, ?_⟩, ?_⟩, ?_⟩, ?_⟩ <;> (rintro rfl; revert h1 h2; decide)
  have hdl : delimChar c = false := by
    simp only [delimChar, hws, Bool.or_eq_false_iff, decide_eq_false_iff_not]
    refine ⟨⟨⟨⟨⟨⟨trivial, ?_⟩, ?_⟩, ?_⟩, ?_⟩, ?_⟩, ?_⟩ <;> (rintro rfl; revert h1 h2; decide)
  refine ⟨hws, hdl, ?_, ?_, ?_, ?_, ?_, ?_, ?_, ?_, ?_, ?_⟩
  · rintro rfl; revert h1 h2; decide
  · rintro rfl; revert h1 h2; decide
  · rintro rfl; revert h1 h2; decide
  · rintro rfl; revert h1 h2; decide
  · rintro rfl; revert h1 h2; decide
  · rintro rfl; revert h1 h2; decide
  · rintro rfl; revert h1 h2; decide
  · rintro rfl; revert h1 h2; decide
  · simp only [expChar, Bool.or_eq_false_iff, decide_eq_false_iff_not]
    constructor <;> (rintro rfl; revert h1 h2; decide)
  · simp only [signChar, Bool.or_eq_false_iff, decide_eq_false_iff_not]
    constructor <;> (rintro rfl; revert h1 h2; decide)

/-- The whitespace skip stops at a non-whitespace character. -/
theorem skipWs_not_ws {c : Char} (h : wsChar c = false) (rest : List Char) :
    skipWs (c :: rest) = c :: rest := by
  simp [skipWs, h]

/-- The whitespace skip runs through a whitespace prefix. -/
theorem skipWs_ws_append {ws : List Char} (h : ws.all wsChar = true) (i : List Char) :
    skipWs (ws ++ i) = skipWs i := by
  induction ws with
  | nil => rfl
  | cons c cs ih =>
    simp only [List.all_cons, Bool.and_eq_true] at h
    simp [skipWs, h.1, ih h.2]

/-- A whitespace-only input skips to nothing. -/
theorem skipWs_ws_nil {ws : List Char} (h : ws.all wsChar = true) : skipWs ws = [] := by
  have := skipWs_ws_append h []
  simpa using this

/-- `par.str` consumes exactly a well-formed rendered string body and its
closing quote, capturing the body. -/
theorem pStr_render {body : List JStrItem} (h : wfItems body = true) (rest : List Char) :
    pStr (renderItems body ++ quoteC :: rest) = some (renderItems body, rest) := by
  induction body with
  | nil => rfl
  | cons it tl ih =>
    cases it with
    | raw c =>
      simp only [wfItems, Bool.and_eq_true, Bool.not_eq_true', decide_eq_false_iff_not] at h
      obtain ⟨⟨h1, h2⟩, h3⟩ := h
      simp [renderItems, pStr, h1, h2, ih h3]
    | esc c =>
      simp only [wfItems] at h
      have hbq : ¬ (bslashC = quoteC) := by decide
      simp [renderItems, pStr, pEsc, hbq, ih h]

/-- Input continues at a delimiter or the end. -/
def boundaryB : List Char → Bool
  | [] => true
  | c :: _ => delimChar c

/-- The exponent-digit loop consumes digits up to a boundary. -/
theorem pExpTail_run {ds : List Char} (h : ds.all isDigitGo = true) {rest : List Char}
    (hb : boundaryB rest = true) : pExpTail (ds ++ rest) = some rest := by
  induction ds with
  | nil =>
    cases rest with
    | nil => rfl
    | cons c cs =>
      simp only [boundaryB] at hb
      simp [pExpTail, hb]
  | cons d ds ih =>
    simp only [List.all_cons, Bool.and_eq_true] at h
    have hf := isDigitGo_scan_facts h.1
    simp [pExpTail, hf.2.1, h.1, ih h.2]

/-- The exponent entry accepts an optional sign and a nonempty digit run. -/
theorem pExpSign_run {sg : Option Char} (hs : sgOK sg = true)
    {dl : List Char} (hd : dl ≠ []) (hdig : dl.all isDigitGo = true)
    {rest : List Char} (hb : boundaryB rest = true) :
    pExpSign (sgRender sg ++ dl ++ rest) = some rest := by
  match dl, hd with
  | d :: ds, _ =>
    simp only [List.all_cons, Bool.and_eq_true] at hdig
    have hf := isDigitGo_scan_facts hdig.1
    cases sg with
    | none =>
      simp [sgRender, pExpSign, hf.2.2.2.2.2.2.2.2.2.2.2, hdig.1, pExpTail_run hdig.2 hb]
    | some sc =>
      simp only [sgOK] at hs
      simp [sgRender, pExpSign, hs, hdig.1, pExpTail_run hdig.2 hb]

/-- The fraction loop consumes digits and an optional exponent part up to
a boundary. -/
theorem pMantTail_run {ds : List Char} (h : ds.all isDigitGo = true)
    {ex : Option (Option Char × List Char)} (hex : exOK ex = true)
    {rest : List Char} (hb : boundaryB rest = true) :
    pMantTail (ds ++ exRender ex ++ rest) = some rest := by
  induction ds with
  | nil =>
    cases ex with
    | none =>
      cases rest with
      | nil => rfl
      | cons c cs =>
        simp only [boundaryB] at hb
        simp [exRender, pMantTail, hb]
    | some p =>
      obtain ⟨sg, l⟩ := p
      simp only [exOK, Bool.and_eq_true, Bool.not_eq_true', decide_eq_false_iff_not] at hex
      obtain ⟨⟨hs, hl⟩, hdig⟩ := hex
      have he1 : delimChar 'e' = false := by decide
      have he2 : isDigitGo 'e' = false := by decide
      have he3 : expChar 'e' = true := by decide
      simp only [exRender, List.nil_append, List.cons_append, pMantTail, he1, he2, he3,
        Bool.false_eq_true, if_false, if_true]
      have := pExpSign_run hs hl hdig hb
      simpa [List.append_assoc] using this
  | cons d ds ih =>
    simp only [List.all_cons, Bool.and_eq_true] at h
    have hf := isDigitGo_scan_facts h.1
    simp only [List.cons_append, pMantTail, hf.2.1, Bool.false_eq_true, if_false,
      h.1, if_true]
    exact ih h.2

/-- The integer-part loop consumes the digit tail, an optional fraction and
an optional exponent up to a boundary. -/
theorem pNumTail_run {ds : List Char} (h : ds.all isDigitGo = true)
    {frac : Option (List Char)} (hfr : frOK frac = true)
    {ex : Option (Option Char × List Char)} (hex : exOK ex = true)
    {rest : List Char} (hb : boundaryB rest = true) :
    pNumTail (ds ++ frRender frac ++ exRender ex ++ rest) = some rest := by
  induction ds with
  | nil =>
    cases frac with
    | none =>
      cases ex with
      | none =>
        cases rest with
        | nil => rfl
        | cons c cs =>
          simp only [boundaryB] at hb
          simp [frRender, exRender, pNumTail, hb]
      | some p =>
        obtain ⟨sg, l⟩ := p
        simp only [exOK, Bool.and_eq_true, Bool.not_eq_true', decide_eq_false_iff_not] at hex
        obtain ⟨⟨hs, hl⟩, hdig⟩ := hex
        have he1 : delimChar 'e' = false := by decide
        have he2 : isDigitGo 'e' = false := by decide
        have he4 : ¬ ('e' = '.') := by decide
        have he3 : expChar 'e' = true := by decide
        simp only [frRender, exRender, List.nil_append, List.cons_append, pNumTail,
          he1, he2, he3, he4, Bool.false_eq_true, if_false, if_true]
        have := pExpSign_run hs hl hdig hb
        simpa [List.append_assoc] using this
    | some fl =>
      simp only [frOK, Bool.and_eq_true, Bool.not_eq_true', decide_eq_false_iff_not] at hfr
      obtain ⟨hfl, hfdig⟩ := hfr
      have hd1 : delimChar '.' = false := by decide
      have hd2 : isDigitGo '.' = false := by decide
      simp only [frRender, List.nil_append, List.cons_append, pNumTail, hd1, hd2,
        Bool.false_eq_true, if_false, if_true]
      match fl, hfl with
      | fd :: fds, _ =>
        simp only [List.all_cons, Bool.and_eq_true] at hfdig
        have := pMantTail_run hfdig.2 hex hb
        simp only [pMant, List.append_eq, List.cons_append, hfdig.1, if_true]
        simpa [List.append_assoc] using this
  | cons d ds ih =>
    simp only [List.all_cons, Bool.and_eq_true] at h
    have hf := isDigitGo_scan_facts h.1
    simp only [List.cons_append, pNumTail, hf.2.1, Bool.false_eq_true, if_false,
      h.1, if_true]
    exact ih h.2

/-- A fixed prefix is consumed exactly. -/
theorem dropPre_run (pre rest : List Char) : dropPre pre (pre ++ rest) = some rest := by
  induction pre with
  | nil => rfl
  | cons p ps ih => simp [dropPre, ih]

/-- `par.ident` accepts its literal tail up to a boundary. -/
theorem pIdent_run (pre : List Char) {rest : List Char} (hb : boundaryB rest = true) :
    pIdent pre (pre ++ rest) = some rest := by
  unfold pIdent
  rw [dropPre_run]
  cases rest with
  | nil => rfl
  | cons c cs =>
    simp only [boundaryB] at hb
    simp [hb]


/-- Extra dispatch characters a digit can never be. -/
theorem isDigitGo_scan_facts2 {c : Char} (h : isDigitGo c = true) :
    c ≠ ']' ∧ c ≠ rbraceC ∧ c ≠ ':' ∧ c ≠ ',' := by
  obtain ⟨h1, h2⟩ := isDigitGo_toNat h
  refine ⟨?_, ?_, ?_, ?_⟩ <;> (rintro rfl; revert h1 h2; decide)

/-- The trailing elements of a sequence, each with its leading comma. -/
def renderElemsTail : List JVal → List Char
  | [] => []
  | v :: tl => ',' :: renderVal v ++ renderElemsTail tl

/-- The trailing entries of an object, each with its leading comma. -/
def renderEntriesTail : List (List JStrItem × JVal) → List Char
  | [] => []
  | (k, v) :: tl =>
    ',' :: quoteC :: renderItems k ++ quoteC :: ':' :: renderVal v ++ renderEntriesTail tl

theorem renderElems_cons (v : JVal) (tl : List JVal) :
    renderElems (v :: tl) = renderVal v ++ renderElemsTail tl := by
  induction tl generalizing v with
  | nil => simp [renderElems, renderElemsTail]
  | cons v2 rest ih =>
    show renderVal v ++ ',' :: renderElems (v2 :: rest) = _
    rw [ih v2]
    simp [renderElemsTail]

theorem renderEntries_cons (k : List JStrItem) (v : JVal)
    (tl : List (List JStrItem × JVal)) :
    renderEntries ((k, v) :: tl)
      = quoteC :: renderItems k ++ quoteC :: ':' :: renderVal v ++ renderEntriesTail tl := by
  induction tl generalizing k v with
  | nil => simp [renderEntries, renderEntriesTail]
  | cons e2 rest ih =>
    obtain ⟨k2, v2⟩ := e2
    show quoteC :: renderItems k ++ quoteC :: ':' :: renderVal v ++ ',' ::
        renderEntries ((k2, v2) :: rest) = _
    rw [ih k2 v2]
    simp [renderEntriesTail]

theorem boundaryB_elemsTail (tl : List JVal) (rest : List Char) :
    boundaryB (renderElemsTail tl ++ ']' :: rest) = true := by
  cases tl with
  | nil => simp [renderElemsTail, boundaryB]; decide
  | cons v t => simp [renderElemsTail, boundaryB]; decide

theorem boundaryB_entriesTail (tl : List (List JStrItem × JVal)) (rest : List Char) :
    boundaryB (renderEntriesTail tl ++ rbraceC :: rest) = true := by
  cases tl with
  | nil => simp [renderEntriesTail, boundaryB]; decide
  | cons e t =>
    obtain ⟨k, v⟩ := e
    simp [renderEntriesTail, boundaryB]; decide

/-- Every well-formed value's text opens with a character that is neither
whitespace nor a closing bracket. -/
theorem renderVal_head {v : JVal} (h : wfVal v = true) :
    ∃ c cs, renderVal v = c :: cs ∧ wsChar c = false ∧ c ≠ ']' ∧ c ≠ rbraceC := by
  cases v with
  | num n =>
    obtain ⟨neg, ip, frac, ex⟩ := n
    simp only [wfVal, wfNum, Bool.and_eq_true, Bool.not_eq_true',
      decide_eq_false_iff_not] at h
    obtain ⟨⟨⟨hne, hdig⟩, _⟩, _⟩ := h
    cases neg with
    | true =>
      exact ⟨'-', ip ++ frRender frac ++ exRender ex,
        by simp [renderVal, renderNum], by decide, by decide, by decide⟩
    | false =>
      match ip, hne with
      | d :: ds, _ =>
        simp only [List.all_cons, Bool.and_eq_true] at hdig
        have hf := isDigitGo_scan_facts hdig.1
        have hf2 := isDigitGo_scan_facts2 hdig.1
        exact ⟨d, ds ++ frRender frac ++ exRender ex,
          by simp [renderVal, renderNum], hf.1, hf2.1, hf2.2.1⟩
  | str b =>
    exact ⟨quoteC, renderItems b ++ [quoteC], by simp [renderVal],
      by decide, by decide, by decide⟩
  | null => exact ⟨'n', ['u', 'l', 'l'], rfl, by decide, by decide, by decide⟩
  | tru => exact ⟨'t', ['r', 'u', 'e'], rfl, by decide, by decide, by decide⟩
  | fals => exact ⟨'f', ['a', 'l', 's', 'e'], rfl, by decide, by decide, by decide⟩
  | arr es =>
    exact ⟨'[', renderElems es ++ [']'], by simp [renderVal],
      by decide, by decide, by decide⟩
  | obj es =>
    exact ⟨lbraceC, renderEntries es ++ [rbraceC], by simp [renderVal],
      by decide, by decide, by decide⟩

/-- A well-formed value has nonempty text. -/
theorem renderVal_len_pos {v : JVal} (h : wfVal v = true) :
    0 < (renderVal v).length := by
  obtain ⟨c, cs, hr, _⟩ := renderVal_head h
  simp [hr]

/-- One unfolding step of `pAny` at positive fuel with the whitespace
already skipped. -/
theorem pAny_step (fuel : Nat) {i : List Char} {c : Char} {rest : List Char}
    (hi : skipWs i = c :: rest) (lvl : Nat) (out : List String) :
    pAny (fuel + 1) i lvl out =
      (if isDigitGo c then (pNumTail rest).map (fun r => (r, out))
      else if c = lbraceC then pObjLoop fuel 0 rest (lvl + 1) out
      else if c = '[' then pArrLoop fuel 0 rest (lvl + 1) out
      else if c = quoteC then (pStr rest).map (fun p => (p.2, out))
      else if c = 'n' then (pIdent ('u' :: 'l' :: 'l' :: []) rest).map (fun r => (r, out))
      else if c = 't' then (pIdent ('r' :: 'u' :: 'e' :: []) rest).map (fun r => (r, out))
      else if c = 'f' then (pIdent ('a' :: 'l' :: 's' :: 'e' :: []) rest).map (fun r => (r, out))
      else if c = '-' then
        (match rest with
        | [] => none
        | c2 :: rest2 =>
          if isDigitGo c2 then (pNumTail rest2).map (fun r => (r, out)) else none)
      else none) := by
  rw [pAny]
  simp only [hi]
  cases rest <;> rfl

/-- One unfolding step of `pObjLoop` at positive fuel with the whitespace
already skipped. -/
theorem pObjLoop_step (fuel mode : Nat) {i : List Char} {c : Char} {rest : List Char}
    (hi : skipWs i = c :: rest) (lvl : Nat) (out : List String) :
    pObjLoop (fuel + 1) mode i lvl out =
      (match mode with
      | 0 =>
        if c = rbraceC then some (rest, out)
        else if c = quoteC then
          match pStr rest with
          | none => none
          | some p => pObjLoop fuel 1 p.2 lvl (if lvl = 1 then out ++ [⟨p.1⟩] else out)
        else none
      | 1 => if c = ':' then pObjLoop fuel 2 rest lvl out else none
      | 2 =>
        match pAny fuel (c :: rest) lvl out with
        | none => none
        | some r => pObjLoop fuel 3 r.1 lvl r.2
      | 3 =>
        if c = rbraceC then some (rest, out)
        else if c = ',' then pObjLoop fuel 4 rest lvl out
        else none
      | 4 => if c = quoteC then pObjLoop fuel 0 (c :: rest) lvl out else none
      | _ + 5 => none) := by
  rw [pObjLoop]
  simp only [hi]

/-- One unfolding step of `pArrLoop` at positive fuel with the whitespace
already skipped. -/
theorem pArrLoop_step (fuel mode : Nat) {i : List Char} {c : Char} {rest : List Char}
    (hi : skipWs i = c :: rest) (lvl : Nat) (out : List String) :
    pArrLoop (fuel + 1) mode i lvl out =
      (match mode with
      | 0 =>
        if c = ']' then some (rest, out)
        else
          match pAny fuel (c :: rest) lvl out with
          | none => none
          | some r => pArrLoop fuel 1 r.1 lvl r.2
      | 1 =>
        if c = ']' then some (rest, out)
        else if c = ',' then pArrLoop fuel 2 rest lvl out
        else none
      | 2 =>
        match pAny fuel (c :: rest) lvl out with
        | none => none
        | some r => pArrLoop fuel 1 r.1 lvl r.2
      | _ + 3 => none) := by
  rw [pArrLoop]
  simp only [hi]


/-- `par.any` on a leading digit runs the number loop. -/
theorem pAny_num (fuel : Nat) {c : Char} (hdig : isDigitGo c = true)
    (cs : List Char) (lvl : Nat) (out : List String) :
    pAny (fuel + 1) (c :: cs) lvl out = (pNumTail cs).map (fun r => (r, out)) := by
  have hf := isDigitGo_scan_facts hdig
  rw [pAny_step fuel (skipWs_not_ws hf.1 cs) lvl out, if_pos hdig]

/-- `par.any` on a minus sign followed by a digit runs the number loop. -/
theorem pAny_neg (fuel : Nat) {c2 : Char} (hdig : isDigitGo c2 = true)
    (cs : List Char) (lvl : Nat) (out : List String) :
    pAny (fuel + 1) ('-' :: c2 :: cs) lvl out = (pNumTail cs).map (fun r => (r, out)) := by
  rw [pAny_step fuel (skipWs_not_ws (by decide) (c2 :: cs)) lvl out]
  show (if isDigitGo c2 then (pNumTail cs).map (fun r => (r, out)) else none) = _
  rw [if_pos hdig]

/-- `par.any` on a leading quote runs the string scan. -/
theorem pAny_quote (fuel : Nat) (cs : List Char) (lvl : Nat) (out : List String) :
    pAny (fuel + 1) (quoteC :: cs) lvl out = (pStr cs).map (fun p => (p.2, out)) := by
  rw [pAny_step fuel (skipWs_not_ws (by decide) cs) lvl out]
  rfl

/-- `par.any` on `n` expects the `null` literal. -/
theorem pAny_null (fuel : Nat) (cs : List Char) (lvl : Nat) (out : List String) :
    pAny (fuel + 1) ('n' :: cs) lvl out
      = (pIdent ('u' :: 'l' :: 'l' :: []) cs).map (fun r => (r, out)) := by
  rw [pAny_step fuel (skipWs_not_ws (by decide) cs) lvl out]
  rfl

/-- `par.any` on `t` expects the `true` literal. -/
theorem pAny_true (fuel : Nat) (cs : List Char) (lvl : Nat) (out : List String) :
    pAny (fuel + 1) ('t' :: cs) lvl out
      = (pIdent ('r' :: 'u' :: 'e' :: []) cs).map (fun r => (r, out)) := by
  rw [pAny_step fuel (skipWs_not_ws (by decide) cs) lvl out]
  rfl

/-- `par.any` on `f` expects the `false` literal. -/
theorem pAny_false (fuel : Nat) (cs : List Char) (lvl : Nat) (out : List String) :
    pAny (fuel + 1) ('f' :: cs) lvl out
      = (pIdent ('a' :: 'l' :: 's' :: 'e' :: []) cs).map (fun r => (r, out)) := by
  rw [pAny_step fuel (skipWs_not_ws (by decide) cs) lvl out]
  rfl

/-- `par.any` on an opening bracket enters the sequence machine one level
deeper. -/
theorem pAny_arr (fuel : Nat) (cs : List Char) (lvl : Nat) (out : List String) :
    pAny (fuel + 1) ('[' :: cs) lvl out = pArrLoop fuel 0 cs (lvl + 1) out := by
  rw [pAny_step fuel (skipWs_not_ws (by decide) cs) lvl out]
  rfl

/-- `par.any` on an opening brace enters the object machine one level
deeper. -/
theorem pAny_obj (fuel : Nat) (cs : List Char) (lvl : Nat) (out : List String) :
    pAny (fuel + 1) (lbraceC :: cs) lvl out = pObjLoop fuel 0 cs (lvl + 1) out := by
  rw [pAny_step fuel (skipWs_not_ws (by decide) cs) lvl out]
  rfl

/-- `beforeKey` on a closing brace ends the object. -/
theorem pObj0_close (fuel : Nat) (cs : List Char) (lvl : Nat) (out : List String) :
    pObjLoop (fuel + 1) 0 (rbraceC :: cs) lvl out = some (cs, out) := by
  rw [pObjLoop_step fuel 0 (skipWs_not_ws (by decide) cs) lvl out]
  rfl

/-- `beforeKey` on a quote scans the key and adds it at level one. -/
theorem pObj0_quote (fuel : Nat) (cs : List Char) {bk rs : List Char}
    (hstr : pStr cs = some (bk, rs)) (lvl : Nat) (out : List String) :
    pObjLoop (fuel + 1) 0 (quoteC :: cs) lvl out
      = pObjLoop fuel 1 rs lvl (if lvl = 1 then out ++ [String.mk bk] else out) := by
  rw [pObjLoop_step fuel 0 (skipWs_not_ws (by decide) cs) lvl out, hstr]
  rfl

/-- `afterKey` consumes the colon. -/
theorem pObj1_step (fuel : Nat) (cs : List Char) (lvl : Nat) (out : List String) :
    pObjLoop (fuel + 1) 1 (':' :: cs) lvl out = pObjLoop fuel 2 cs lvl out := by
  rw [pObjLoop_step fuel 1 (skipWs_not_ws (by decide) cs) lvl out]
  rfl

/-- `afterColon` scans one value. -/
theorem pObj2_step (fuel : Nat) {c : Char} (hws : wsChar c = false) (cs : List Char)
    (lvl : Nat) (out : List String) {r1 : List Char} {r2 : List String}
    (hA : pAny fuel (c :: cs) lvl out = some (r1, r2)) :
    pObjLoop (fuel + 1) 2 (c :: cs) lvl out = pObjLoop fuel 3 r1 lvl r2 := by
  rw [pObjLoop_step fuel 2 (skipWs_not_ws hws cs) lvl out, hA]

/-- `afterValue` on a closing brace ends the object. -/
theorem pObj3_close (fuel : Nat) (cs : List Char) (lvl : Nat) (out : List String) :
    pObjLoop (fuel + 1) 3 (rbraceC :: cs) lvl out = some (cs, out) := by
  rw [pObjLoop_step fuel 3 (skipWs_not_ws (by decide) cs) lvl out]
  rfl

/-- `afterValue` on a comma waits for the next key. -/
theorem pObj3_comma (fuel : Nat) (cs : List Char) (lvl : Nat) (out : List String) :
    pObjLoop (fuel + 1) 3 (',' :: cs) lvl out = pObjLoop fuel 4 cs lvl out := by
  rw [pObjLoop_step fuel 3 (skipWs_not_ws (by decide) cs) lvl out]
  rfl

/-- `afterComma` re-enters `beforeKey` without consuming the quote. -/
theorem pObj4_step (fuel : Nat) (cs : List Char) (lvl : Nat) (out : List String) :
    pObjLoop (fuel + 1) 4 (quoteC :: cs) lvl out
      = pObjLoop fuel 0 (quoteC :: cs) lvl out := by
  rw [pObjLoop_step fuel 4 (skipWs_not_ws (by decide) cs) lvl out]
  rfl

/-- `beforeVal` on a closing bracket ends the sequence. -/
theorem pArr0_close (fuel : Nat) (cs : List Char) (lvl : Nat) (out : List String) :
    pArrLoop (fuel + 1) 0 (']' :: cs) lvl out = some (cs, out) := by
  rw [pArrLoop_step fuel 0 (skipWs_not_ws (by decide) cs) lvl out]
  rfl

/-- `beforeVal` on anything else scans one value. -/
theorem pArr0_step (fuel : Nat) {c : Char} (hws : wsChar c = false)
    (hc : ¬ (c = ']')) (cs : List Char) (lvl : Nat) (out : List String)
    {r1 : List Char} {r2 : List String}
    (hA : pAny fuel (c :: cs) lvl out = some (r1, r2)) :
    pArrLoop (fuel + 1) 0 (c :: cs) lvl out = pArrLoop fuel 1 r1 lvl r2 := by
  rw [pArrLoop_step fuel 0 (skipWs_not_ws hws cs) lvl out, if_neg hc, hA]

/-- `afterVal` on a closing bracket ends the sequence. -/
theorem pArr1_close (fuel : Nat) (cs : List Char) (lvl : Nat) (out : List String) :
    pArrLoop (fuel + 1) 1 (']' :: cs) lvl out = some (cs, out) := by
  rw [pArrLoop_step fuel 1 (skipWs_not_ws (by decide) cs) lvl out]
  rfl

/-- `afterVal` on a comma expects another value. -/
theorem pArr1_comma (fuel : Nat) (cs : List Char) (lvl : Nat) (out : List String) :
    pArrLoop (fuel + 1) 1 (',' :: cs) lvl out = pArrLoop fuel 2 cs lvl out := by
  rw [pArrLoop_step fuel 1 (skipWs_not_ws (by decide) cs) lvl out]
  rfl

/-- `afterComma` scans one value. -/
theorem pArr2_step (fuel : Nat) {c : Char} (hws : wsChar c = false) (cs : List Char)
    (lvl : Nat) (out : List String) {r1 : List Char} {r2 : List String}
    (hA : pAny fuel (c :: cs) lvl out = some (r1, r2)) :
    pArrLoop (fuel + 1) 2 (c :: cs) lvl out = pArrLoop fuel 1 r1 lvl r2 := by
  rw [pArrLoop_step fuel 2 (skipWs_not_ws hws cs) lvl out, hA]


/-- With enough fuel, each scanner entry point consumes exactly the
rendered text of a well-formed document fragment: `par.any` consumes one
value and adds no keys at levels one and deeper, `par.obj` consumes the
entries and the closing brace and collects the keys exactly at level one,
`par.arr` consumes the elements and the closing bracket. -/
theorem scanOK (fuel : Nat) :
    (∀ v lvl out rest, wfVal v = true → 1 ≤ lvl → boundaryB rest = true →
        3 * (renderVal v).length ≤ fuel →
        pAny fuel (renderVal v ++ rest) lvl out = some (rest, out)) ∧
    (∀ es lvl out rest, wfEntries es = true → 1 ≤ lvl →
        3 * (renderEntries es).length + 3 ≤ fuel →
        pObjLoop fuel 0 (renderEntries es ++ rbraceC :: rest) lvl out
          = some (rest, out ++ if lvl = 1 then keysOf es else [])) ∧
    (∀ es lvl out rest, wfEntries es = true → 1 ≤ lvl →
        3 * (renderEntriesTail es).length + 3 ≤ fuel →
        pObjLoop fuel 3 (renderEntriesTail es ++ rbraceC :: rest) lvl out
          = some (rest, out ++ if lvl = 1 then keysOf es else [])) ∧
    (∀ es lvl out rest, wfElems es = true → 1 ≤ lvl →
        3 * (renderElems es).length + 3 ≤ fuel →
        pArrLoop fuel 0 (renderElems es ++ ']' :: rest) lvl out = some (rest, out)) ∧
    (∀ es lvl out rest, wfElems es = true → 1 ≤ lvl →
        3 * (renderElemsTail es).length + 3 ≤ fuel →
        pArrLoop fuel 1 (renderElemsTail es ++ ']' :: rest) lvl out = some (rest, out)) := by
  induction fuel using Nat.strong_induction_on with
  | h fuel ih =>
  refine ⟨?_, ?_, ?_, ?_, ?_⟩
  · -- par.any consumes one rendered value
    intro v lvl out rest hwf hlvl hb hfuel
    obtain ⟨f, rfl⟩ : ∃ f, fuel = f + 1 :=
      ⟨fuel - 1, by have := renderVal_len_pos hwf; omega⟩
    cases v with
    | num n =>
      obtain ⟨neg, ip, frac, ex⟩ := n
      simp only [wfVal, wfNum, Bool.and_eq_true, Bool.not_eq_true',
        decide_eq_false_iff_not] at hwf
      obtain ⟨⟨⟨hne, hdig⟩, hfr⟩, hex⟩ := hwf
      match ip, hne with
      | d :: ds, _ =>
        simp only [List.all_cons, Bool.and_eq_true] at hdig
        cases neg with
        | false =>
          have hnorm : renderVal (.num (.mk false (d :: ds) frac ex)) ++ rest
              = d :: (ds ++ frRender frac ++ exRender ex ++ rest) := by
            simp [renderVal, renderNum]
          rw [hnorm, pAny_num f hdig.1 _ lvl out, pNumTail_run hdig.2 hfr hex hb]
          rfl
        | true =>
          have hnorm : renderVal (.num (.mk true (d :: ds) frac ex)) ++ rest
              = '-' :: d :: (ds ++ frRender frac ++ exRender ex ++ rest) := by
            simp [renderVal, renderNum]
          rw [hnorm, pAny_neg f hdig.1 _ lvl out, pNumTail_run hdig.2 hfr hex hb]
          rfl
    | str b =>
      simp only [wfVal] at hwf
      have hnorm : renderVal (.str b) ++ rest
          = quoteC :: (renderItems b ++ quoteC :: rest) := by
        simp [renderVal]
      rw [hnorm, pAny_quote f _ lvl out, pStr_render hwf]
      rfl
    | null =>
      have hnorm : renderVal .null ++ rest
          = 'n' :: (('u' :: 'l' :: 'l' :: []) ++ rest) := rfl
      rw [hnorm, pAny_null f _ lvl out, pIdent_run _ hb]
      rfl
    | tru =>
      have hnorm : renderVal .tru ++ rest
          = 't' :: (('r' :: 'u' :: 'e' :: []) ++ rest) := rfl
      rw [hnorm, pAny_true f _ lvl out, pIdent_run _ hb]
      rfl
    | fals =>
      have hnorm : renderVal .fals ++ rest
          = 'f' :: (('a' :: 'l' :: 's' :: 'e' :: []) ++ rest) := rfl
      rw [hnorm, pAny_false f _ lvl out, pIdent_run _ hb]
      rfl
    | arr es =>
      simp only [wfVal] at hwf
      have hlen : (renderVal (.arr es)).length = (renderElems es).length + 2 := by
        simp [renderVal]
      have hnorm : renderVal (.arr es) ++ rest = '[' :: (renderElems es ++ ']' :: rest) := by
        simp [renderVal]
      rw [hnorm, pAny_arr f _ lvl out]
      exact (ih f (by omega)).2.2.2.1 es (lvl + 1) out rest hwf (by omega) (by omega)
    | obj es =>
      simp only [wfVal] at hwf
      have hlen : (renderVal (.obj es)).length = (renderEntries es).length + 2 := by
        simp [renderVal]
      have hnorm : renderVal (.obj es) ++ rest
          = lbraceC :: (renderEntries es ++ rbraceC :: rest) := by
        simp [renderVal]
      rw [hnorm, pAny_obj f _ lvl out]
      rw [(ih f (by omega)).2.1 es (lvl + 1) out rest hwf (by omega) (by omega)]
      rw [if_neg (by omega), List.append_nil]
  · -- par.obj from beforeKey consumes the entries and the closing brace
    intro es lvl out rest hwf hlvl hfuel
    cases es with
    | nil =>
      obtain ⟨f, rfl⟩ : ∃ f, fuel = f + 1 := ⟨fuel - 1, by omega⟩
      simp only [renderEntries, List.nil_append]
      rw [pObj0_close f rest lvl out]
      simp [keysOf]
    | cons e tl =>
      obtain ⟨k, v⟩ := e
      simp only [wfEntries, Bool.and_eq_true] at hwf
      obtain ⟨⟨hk, hv⟩, htl⟩ := hwf
      have hlen : (renderEntries ((k, v) :: tl)).length
          = (renderItems k).length + (renderVal v).length
            + (renderEntriesTail tl).length + 3 := by
        rw [renderEntries_cons]
        simp only [List.length_cons, List.length_append]
        omega
      obtain ⟨g, rfl⟩ : ∃ g, fuel = g + 1 + 1 + 1 := ⟨fuel - 3, by omega⟩
      rw [renderEntries_cons]
      simp only [List.cons_append, List.append_assoc]
      rw [pObj0_quote (g + 1 + 1) _ (pStr_render hk _) lvl out]
      rw [pObj1_step (g + 1) _ lvl _]
      obtain ⟨c, cs, hvh, hcws, hc1, hc2⟩ := renderVal_head hv
      rw [hvh]
      simp only [List.cons_append]
      have hA := (ih g (by omega)).1 v lvl
        (if lvl = 1 then out ++ [String.mk (renderItems k)] else out)
        (renderEntriesTail tl ++ rbraceC :: rest) hv hlvl
        (boundaryB_entriesTail tl rest) (by omega)
      rw [hvh] at hA
      simp only [List.cons_append] at hA
      rw [pObj2_step g hcws _ lvl _ hA]
      rw [(ih g (by omega)).2.2.1 tl lvl _ rest htl hlvl (by omega)]
      by_cases hl : lvl = 1 <;> simp [hl, keysOf]
  · -- par.obj from afterValue consumes the remaining entries and the brace
    intro es lvl out rest hwf hlvl hfuel
    cases es with
    | nil =>
      obtain ⟨f, rfl⟩ : ∃ f, fuel = f + 1 := ⟨fuel - 1, by omega⟩
      simp only [renderEntriesTail, List.nil_append]
      rw [pObj3_close f rest lvl out]
      simp [keysOf]
    | cons e tl =>
      obtain ⟨k, v⟩ := e
      simp only [wfEntries, Bool.and_eq_true] at hwf
      obtain ⟨⟨hk, hv⟩, htl⟩ := hwf
      have hlen : (renderEntriesTail ((k, v) :: tl)).length
          = (renderItems k).length + (renderVal v).length
            + (renderEntriesTail tl).length + 4 := by
        simp only [renderEntriesTail, List.length_cons, List.length_append]
        omega
      obtain ⟨g, rfl⟩ : ∃ g, fuel = g + 1 + 1 + 1 + 1 + 1 := ⟨fuel - 5, by omega⟩
      show pObjLoop (g + 1 + 1 + 1 + 1 + 1) 3
        (renderEntriesTail ((k, v) :: tl) ++ rbraceC :: rest) lvl out = _
      rw [show renderEntriesTail ((k, v) :: tl)
          = ',' :: quoteC :: renderItems k ++ quoteC :: ':' :: renderVal v
            ++ renderEntriesTail tl from rfl]
      simp only [List.cons_append, List.append_assoc]
      rw [pObj3_comma (g + 1 + 1 + 1 + 1) _ lvl out]
      rw [pObj4_step (g + 1 + 1 + 1) _ lvl out]
      rw [pObj0_quote (g + 1 + 1) _ (pStr_render hk _) lvl out]
      rw [pObj1_step (g + 1) _ lvl _]
      obtain ⟨c, cs, hvh, hcws, hc1, hc2⟩ := renderVal_head hv
      rw [hvh]
      simp only [List.cons_append]
      have hA := (ih g (by omega)).1 v lvl
        (if lvl = 1 then out ++ [String.mk (renderItems k)] else out)
        (renderEntriesTail tl ++ rbraceC :: rest) hv hlvl
        (boundaryB_entriesTail tl rest) (by omega)
      rw [hvh] at hA
      simp only [List.cons_append] at hA
      rw [pObj2_step g hcws _ lvl _ hA]
      rw [(ih g (by omega)).2.2.1 tl lvl _ rest htl hlvl (by omega)]
      by_cases hl : lvl = 1 <;> simp [hl, keysOf]
  · -- par.arr from beforeVal consumes the elements and the closing bracket
    intro es lvl out rest hwf hlvl hfuel
    cases es with
    | nil =>
      obtain ⟨f, rfl⟩ : ∃ f, fuel = f + 1 := ⟨fuel - 1, by omega⟩
      simp only [renderElems, List.nil_append]
      rw [pArr0_close f rest lvl out]
    | cons v tl =>
      simp only [wfElems, Bool.and_eq_true] at hwf
      obtain ⟨hv, htl⟩ := hwf
      have hlen : (renderElems (v :: tl)).length
          = (renderVal v).length + (renderElemsTail tl).length := by
        rw [renderElems_cons]
        simp [List.length_append]
      have hvp := renderVal_len_pos hv
      obtain ⟨g, rfl⟩ : ∃ g, fuel = g + 1 := ⟨fuel - 1, by omega⟩
      rw [renderElems_cons]
      obtain ⟨c, cs, hvh, hcws, hc1, hc2⟩ := renderVal_head hv
      rw [hvh]
      simp only [List.cons_append, List.append_assoc]
      have hA := (ih g (by omega)).1 v lvl out
        (renderElemsTail tl ++ ']' :: rest) hv hlvl
        (boundaryB_elemsTail tl rest) (by omega)
      rw [hvh] at hA
      simp only [List.cons_append] at hA
      rw [pArr0_step g hcws hc1 _ lvl out hA]
      exact (ih g (by omega)).2.2.2.2 tl lvl out rest htl hlvl (by omega)
  · -- par.arr from afterVal consumes the remaining elements and the bracket
    intro es lvl out rest hwf hlvl hfuel
    cases es with
    | nil =>
      obtain ⟨f, rfl⟩ : ∃ f, fuel = f + 1 := ⟨fuel - 1, by omega⟩
      simp only [renderElemsTail, List.nil_append]
      rw [pArr1_close f rest lvl out]
    | cons v tl =>
      simp only [wfElems, Bool.and_eq_true] at hwf
      obtain ⟨hv, htl⟩ := hwf
      have hlen : (renderElemsTail (v :: tl)).length
          = (renderVal v).length + (renderElemsTail tl).length + 1 := by
        simp only [renderElemsTail, List.length_cons, List.length_append]
        omega
      obtain ⟨g, rfl⟩ : ∃ g, fuel = g + 1 + 1 := ⟨fuel - 2, by omega⟩
      show pArrLoop (g + 1 + 1) 1 (renderElemsTail (v :: tl) ++ ']' :: rest) lvl out = _
      rw [show renderElemsTail (v :: tl)
          = ',' :: renderVal v ++ renderElemsTail tl from rfl]
      simp only [List.cons_append, List.append_assoc]
      rw [pArr1_comma (g + 1) _ lvl out]
      obtain ⟨c, cs, hvh, hcws, hc1, hc2⟩ := renderVal_head hv
      rw [hvh]
      simp only [List.cons_append]
      have hA := (ih g (by omega)).1 v lvl out
        (renderElemsTail tl ++ ']' :: rest) hv hlvl
        (boundaryB_elemsTail tl rest) (by omega)
      rw [hvh] at hA
      simp only [List.cons_append] at hA
      rw [pArr2_step g hcws _ lvl out hA]
      exact (ih g (by omega)).2.2.2.2 tl lvl out rest htl hlvl (by omega)


/-- A well-formed non-object value's text opens with a character that is
neither whitespace nor an opening brace. -/
theorem renderVal_head_nonobj {v : JVal} (h : wfVal v = true)
    (hno : ∀ es, v ≠ JVal.obj es) :
    ∃ c cs, renderVal v = c :: cs ∧ wsChar c = false ∧ ¬ (c = lbraceC) := by
  cases v with
  | num n =>
    obtain ⟨neg, ip, frac, ex⟩ := n
    simp only [wfVal, wfNum, Bool.and_eq_true, Bool.not_eq_true',
      decide_eq_false_iff_not] at h
    obtain ⟨⟨⟨hne, hdig⟩, _⟩, _⟩ := h
    cases neg with
    | true =>
      exact ⟨'-', ip ++ frRender frac ++ exRender ex,
        by simp [renderVal, renderNum], by decide, by decide⟩
    | false =>
      match ip, hne with
      | d :: ds, _ =>
        simp only [List.all_cons, Bool.and_eq_true] at hdig
        have hf := isDigitGo_scan_facts hdig.1
        exact ⟨d, ds ++ frRender frac ++ exRender ex,
          by simp [renderVal, renderNum], hf.1, hf.2.2.1⟩
  | str b =>
    exact ⟨quoteC, renderItems b ++ [quoteC], by simp [renderVal],
      by decide, by decide⟩
  | null => exact ⟨'n', ['u', 'l', 'l'], rfl, by decide, by decide⟩
  | tru => exact ⟨'t', ['r', 'u', 'e'], rfl, by decide, by decide⟩
  | fals => exact ⟨'f', ['a', 'l', 's', 'e'], rfl, by decide, by decide⟩
  | arr es =>
    exact ⟨'[', renderElems es ++ [']'], by simp [renderVal],
      by decide, by decide⟩
  | obj es => exact absurd rfl (hno es)

/-- `par.top` on an empty or whitespace-only source returns no keys. -/
theorem pTop_nil (fuel : Nat) {i : List Char} (hi : skipWs i = []) :
    pTop fuel i = some ([], []) := by
  rw [pTop, hi]

/-- `par.top` enters the object machine at level one on an opening brace. -/
theorem pTop_obj (fuel : Nat) {i rest : List Char} (hi : skipWs i = lbraceC :: rest) :
    pTop fuel i = pObjLoop fuel 0 rest 1 [] := by
  rw [pTop, hi]
  rfl

/-- `par.top` on any other first character stops silently with no keys. -/
theorem pTop_other (fuel : Nat) {i : List Char} {c : Char} {rest : List Char}
    (hi : skipWs i = c :: rest) (hc : ¬ (c = lbraceC)) :
    pTop fuel i = some (c :: rest, []) := by
  rw [pTop, hi]
  simp only [if_neg hc]

/-- The scanner on a concrete document: immediate keys collected in order,
nested object keys skipped, numbers, arrays and strings consumed. -/
theorem parseSet_sample :
    parseSet "\x7b\"a\":1, \"b\":[\x7b\"c\":2\x7d], \"d\":\"x\"\x7d"
      = some ["a", "b", "d"] := rfl

/-- The scanner on a non-object source: no keys, no error. -/
theorem parseSet_sample_nonobj : parseSet "[1, 2" = some [] := rfl


/-- C1: the claim says the scan raises `MalformedInput` for every source
that is not empty/whitespace-only and not exactly one well-formed JSON
value. The scanner contradicts this on both sides it can: arbitrary
garbage and a truncated array return the empty set with no error, a
complete object followed by trailing garbage returns its keys with no
error — yet a truncated object does raise. -/
theorem claim_C1_counterexample :
    parseSet "garbage" = some [] ∧
    parseSet "[1, 2" = some [] ∧
    parseSet "\x7b\x7d trailing garbage" = some [] ∧
    parseSet "\x7b\"a\":1\x7d extra" = some ["a"] ∧
    parseSet "\x7b" = none := by
  exact ⟨rfl, rfl, rfl, rfl, rfl⟩

/-- C1 (amended): the scan fails only inside a brace-opened object scan.
A source whose first non-whitespace character is not an opening brace
returns the empty set with no validation at all; an empty or
whitespace-only source returns the empty set; a well-formed top-level
object returns its keys no matter what trailing content follows; and a
failing scan implies the source opened with a brace. -/
theorem claim_C1_amended :
    (∀ (src : String) (c : Char) (rest : List Char),
        skipWs src.data = c :: rest → ¬ (c = lbraceC) → parseSet src = some []) ∧
    (∀ src : String, src.data.all wsChar = true → parseSet src = some []) ∧
    (∀ (es : List (List JStrItem × JVal)) (trail : List Char),
        wfEntries es = true →
        parseSet ⟨lbraceC :: renderEntries es ++ rbraceC :: trail⟩
          = some (keysOf es)) ∧
    (∀ src : String, parseSet src = none →
        ∃ rest, skipWs src.data = lbraceC :: rest) := by
  refine ⟨?_, ?_, ?_, ?_⟩
  · intro src c rest h hc
    rw [parseSet, pTop_other _ h hc]
    rfl
  · intro src h
    rw [parseSet, pTop_nil _ (skipWs_ws_nil h)]
    rfl
  · intro es trail hwf
    have hskip : skipWs ((⟨lbraceC :: renderEntries es ++ rbraceC :: trail⟩ : String)).data
        = lbraceC :: (renderEntries es ++ rbraceC :: trail) :=
      skipWs_not_ws (by decide) _
    rw [parseSet, pTop_obj _ hskip]
    rw [(scanOK _).2.1 es 1 [] trail hwf (le_refl 1) (by
      show 3 * (renderEntries es).length + 3
        ≤ 3 * (lbraceC :: renderEntries es ++ rbraceC :: trail).length + 4
      simp only [List.length_cons, List.length_append]
      omega)]
    simp
  · intro src h
    rcases hsk : skipWs src.data with _ | ⟨c, rest⟩
    · rw [parseSet, pTop_nil _ hsk] at h
      simp at h
    · by_cases hc : c = lbraceC
      · refine ⟨rest, ?_⟩
        rw [← hc]
      · rw [parseSet, pTop_other _ hsk hc] at h
        simp at h

/-- C1 amended, instantiated: a non-brace source and a whitespace-only
source return the empty set, a concrete object with trailing garbage
returns its key, and a failing source is shown to open with a brace. -/
theorem claim_C1_amended_witness :
    parseSet "x" = some [] ∧ parseSet "  " = some [] ∧
    parseSet "\x7b\"k\":null\x7dgarbage" = some ["k"] ∧
    ∃ rest, skipWs ("\x7b" : String).data = lbraceC :: rest := by
  refine ⟨?_, ?_, ?_, ?_⟩
  · exact claim_C1_amended.1 "x" 'x' [] rfl (by decide)
  · exact claim_C1_amended.2.1 "  " (by decide)
  · have h := claim_C1_amended.2.2.1
      [([JStrItem.raw 'k'], JVal.null)]
      ("garbage".data) (by decide)
    simpa using h
  · exact claim_C1_amended.2.2.2 "\x7b" rfl

/-- C2: on every well-formed JSON document the membership scan returns
exactly the top-level object's immediate key names — whatever the nested
structure, number formats or escapes — and the empty set when the
top-level value is not an object or the source is empty or
whitespace-only. -/
theorem claim_C2_membership :
    (∀ (es : List (List JStrItem × JVal)) (ws1 ws2 : List Char),
        wfEntries es = true → ws1.all wsChar = true → ws2.all wsChar = true →
        parseSet ⟨ws1 ++ renderVal (.obj es) ++ ws2⟩ = some (keysOf es)) ∧
    (∀ (v : JVal) (ws1 ws2 : List Char),
        wfVal v = true → (∀ es, v ≠ JVal.obj es) →
        ws1.all wsChar = true → ws2.all wsChar = true →
        parseSet ⟨ws1 ++ renderVal v ++ ws2⟩ = some []) ∧
    (∀ ws : List Char, ws.all wsChar = true → parseSet ⟨ws⟩ = some []) := by
  refine ⟨?_, ?_, ?_⟩
  · intro es ws1 ws2 hwf hws1 _hws2
    have hx : renderVal (.obj es) ++ ws2
        = lbraceC :: (renderEntries es ++ rbraceC :: ws2) := by
      simp [renderVal]
    have hskip : skipWs ((⟨ws1 ++ renderVal (.obj es) ++ ws2⟩ : String)).data
        = lbraceC :: (renderEntries es ++ rbraceC :: ws2) := by
      show skipWs (ws1 ++ renderVal (.obj es) ++ ws2) = _
      rw [List.append_assoc, skipWs_ws_append hws1, hx,
        skipWs_not_ws (by decide)]
    have hlen : (renderVal (.obj es)).length = (renderEntries es).length + 2 := by
      simp [renderVal]
    rw [parseSet, pTop_obj _ hskip]
    rw [(scanOK _).2.1 es 1 [] ws2 hwf (le_refl 1) (by
      show 3 * (renderEntries es).length + 3
        ≤ 3 * (ws1 ++ renderVal (.obj es) ++ ws2).length + 4
      simp only [List.length_append, hlen]
      omega)]
    simp
  · intro v ws1 ws2 hwf hno hws1 _hws2
    obtain ⟨c, cs, hvh, hcws, hcb⟩ := renderVal_head_nonobj hwf hno
    have hskip : skipWs ((⟨ws1 ++ renderVal v ++ ws2⟩ : String)).data
        = c :: (cs ++ ws2) := by
      show skipWs (ws1 ++ renderVal v ++ ws2) = _
      rw [List.append_assoc, skipWs_ws_append hws1, hvh]
      simp only [List.cons_append]
      exact skipWs_not_ws hcws _
    rw [parseSet, pTop_other _ hskip hcb]
    rfl
  · intro ws h
    rw [parseSet, pTop_nil _ (skipWs_ws_nil (by exact h))]
    rfl

/-- C2, instantiated: a document with nested structure, numeric formats
and an escape returns exactly the immediate keys; a top-level array
returns the empty set; a whitespace-only source returns the empty set. -/
theorem claim_C2_membership_witness :
    parseSet " \x7b\"a\":\x7b\"in\":1\x7d,\"b\\\"c\":-2.5e+10\x7d " = some ["a", "b\\\"c"] ∧
    parseSet "[1,2]" = some [] ∧
    parseSet " " = some [] := by
  refine ⟨?_, ?_, ?_⟩
  · have h := claim_C2_membership.1
      [([JStrItem.raw 'a'], JVal.obj [([JStrItem.raw 'i', JStrItem.raw 'n'],
          JVal.num (JNum.mk false ['1'] none none))]),
       ([JStrItem.raw 'b', JStrItem.esc '"', JStrItem.raw 'c'],
          JVal.num (JNum.mk true ['2'] (some ['5']) (some (some '+', ['1', '0']))))]
      [' '] [' '] (by decide) (by decide) (by decide)
    have he : ((⟨[' '] ++ renderVal (.obj
        [([JStrItem.raw 'a'], JVal.obj [([JStrItem.raw 'i', JStrItem.raw 'n'],
            JVal.num (JNum.mk false ['1'] none none))]),
         ([JStrItem.raw 'b', JStrItem.esc '"', JStrItem.raw 'c'],
            JVal.num (JNum.mk true ['2'] (some ['5']) (some (some '+', ['1', '0']))))])
        ++ [' ']⟩ : String))
        = " \x7b\"a\":\x7b\"in\":1\x7d,\"b\\\"c\":-2.5e+10\x7d " := by decide
    have hk : keysOf
        [([JStrItem.raw 'a'], JVal.obj [([JStrItem.raw 'i', JStrItem.raw 'n'],
            JVal.num (JNum.mk false ['1'] none none))]),
         ([JStrItem.raw 'b', JStrItem.esc '"', JStrItem.raw 'c'],
            JVal.num (JNum.mk true ['2'] (some ['5']) (some (some '+', ['1', '0']))))]
        = ["a", "b\\\"c"] := by decide
    rw [he, hk] at h
    exact h
  · have h := claim_C2_membership.2.1 (JVal.arr
      [JVal.num (JNum.mk false ['1'] none none),
       JVal.num (JNum.mk false ['2'] none none)])
      [] [] (by decide) (by intro es h; cases h) (by decide) (by decide)
    have he : ((⟨[] ++ renderVal (JVal.arr
        [JVal.num (JNum.mk false ['1'] none none),
         JVal.num (JNum.mk false ['2'] none none)]) ++ []⟩ : String)) = "[1,2]" := rfl
    rw [he] at h
    exact h
  · exact claim_C2_membership.2.2 [' '] (by decide)

end Rd
